import Mathlib

/-!
Verification of the display/highlighting core of the Kakoune editor
(files src/highlighters.cc, src/word_db.cc, src/display_buffer.hh).

The C++ sources are shallowly embedded: buffers are lists of lines
(each line a list of characters, one `Char` per byte), coordinates are
pairs of integers ordered lexicographically, regexes are abstracted as
per-line match functions, and the stateful C++ loops become explicit
recursions or folds.  Components whose implementation files are not in
the repository snapshot (coord.hh, display_buffer.cc, line_modification,
parameters_parser, buffer_utils) are modelled from the specification and
are marked as such in their doc comments.
-/

namespace Kakoune

/-- `ByteCoord` from coord.hh (modelled from the spec: an ordered pair
`(line, column)` with lexicographic order; `LineCount`/`ByteCount` are
C++ ints, modelled as `Int`). -/
structure ByteCoord where
  line : Int
  column : Int
deriving DecidableEq, Repr

/-- Key for the lexicographic order on coordinates. -/
def ByteCoord.key (c : ByteCoord) : Int ×ₗ Int := toLex (c.line, c.column)

theorem ByteCoord.key_injective : Function.Injective ByteCoord.key := by
  intro a b h
  cases a; cases b
  simpa [ByteCoord.key, toLex, Prod.mk.injEq, ByteCoord.mk.injEq] using h

instance : LinearOrder ByteCoord := LinearOrder.lift' ByteCoord.key ByteCoord.key_injective

theorem ByteCoord.lt_def {a b : ByteCoord} :
    a < b ↔ a.line < b.line ∨ (a.line = b.line ∧ a.column < b.column) := by
  change a.key < b.key ↔ _
  rw [ByteCoord.key, ByteCoord.key, Prod.Lex.lt_iff]

theorem ByteCoord.le_def {a b : ByteCoord} :
    a ≤ b ↔ a.line < b.line ∨ (a.line = b.line ∧ a.column ≤ b.column) := by
  change a.key ≤ b.key ↔ _
  rw [ByteCoord.key, ByteCoord.key, Prod.Lex.le_iff]

/-- `LineModification` (modelled from the spec: line_modification.hh is not
in the snapshot; fields `(old_line, new_line, num_removed, num_added)` with
`new_line = old_line + Σ prior diffs`, spec section 4.4). -/
structure LineModification where
  old_line : Int
  new_line : Int
  num_removed : Int
  num_added : Int
deriving DecidableEq, Repr

/-- `LineModification::diff` (modelled from the spec: the cumulative line
shift contributed by this and all prior modifications; with
`new_line = old_line + Σ prior diffs` this is
`new_line + num_added - old_line - num_removed`, matching scenario 6 of
spec section 8 where the shift is `num_added - num_removed`). -/
def LineModification.diff (m : LineModification) : Int :=
  m.new_line + m.num_added - m.old_line - m.num_removed

/-! ## Word database (word_db.cc) -/

/-- `is_word` (modelled from the spec: alphanumeric, underscore and
non-ASCII letters; the implementation lives in unicode.hh which is not in
the snapshot). -/
def is_word (c : Char) : Bool := c.isAlphanum || c = '_' || 127 < c.toNat

/-- A word: an interned byte string, modelled as its list of characters. -/
abbrev Word : Type := List Char

/-- Byte-wise lexicographic strict order on words, the `std::map` key
order of the interned strings. -/
def wordLt : Word → Word → Bool
  | _, [] => false
  | [], _ :: _ => true
  | a :: as, b :: bs => a.toNat < b.toNat || (a = b && wordLt as bs)

/-- Worker for `get_words`: the in_word/word_start scan of word_db.cc,
carrying the current run of word characters instead of a start pointer.
A word run still open at the end of the content is not emitted, exactly
as in the source loop. -/
def get_words_go : List Char → List Char → Bool → List Word
  | [], _, _ => []
  | c :: rest, cur, inw =>
    if is_word c then
      if inw then get_words_go rest (cur ++ [c]) true
      else get_words_go rest [c] true
    else
      if inw then cur :: get_words_go rest [] false
      else get_words_go rest cur false

/-- `get_words` from word_db.cc: maximal runs of word characters. -/
def get_words (content : List Char) : List Word := get_words_go content [] false

/-- `WordDB::WordList`, a `std::map<InternedString, int>` modelled as a
sorted association list. -/
abbrev WordList : Type := List (Word × Nat)

/-- The `++wl[w]` step of `add_words`: bump the count of `w`, inserting it
(at its sorted position, as `std::map::operator[]` does) when absent. -/
def wlIncr : WordList → Word → WordList
  | [], w => [(w, 1)]
  | kv :: rest, w =>
    if w = kv.1 then (kv.1, kv.2 + 1) :: rest
    else if wordLt w kv.1 then (w, 1) :: kv :: rest
    else kv :: wlIncr rest w

/-- The body of `remove_words` for one word: find the entry, decrement its
count and erase it when the count reaches zero.  (The source asserts that
the entry exists with positive count; on a missing key this model keeps
the list unchanged.) -/
def wlDecr : WordList → Word → WordList
  | [], _ => []
  | kv :: rest, w =>
    if w = kv.1 then (if kv.2 ≤ 1 then rest else (kv.1, kv.2 - 1) :: rest)
    else kv :: wlDecr rest w

/-- `add_words` from word_db.cc. -/
def add_words (wl : WordList) (ws : List Word) : WordList := ws.foldl wlIncr wl

/-- `remove_words` from word_db.cc. -/
def remove_words (wl : WordList) (ws : List Word) : WordList := ws.foldl wlDecr wl

/-- The `WordDB` state (word_db.hh is not in the snapshot; the fields are
exactly those used by word_db.cc, with the buffer reference made an
explicit argument of the member functions). -/
structure WordDB where
  m_words : WordList
  m_line_to_words : List (List Word)
  m_timestamp : Nat
deriving DecidableEq

/-- `WordDB::WordDB(const Buffer&)`: scan every line and accumulate the
word multiset. -/
def WordDB.init (buffer : List (List Char)) (ts : Nat) : WordDB :=
  let l2w := buffer.map get_words
  { m_words := l2w.foldl add_words [],
    m_line_to_words := l2w,
    m_timestamp := ts }

/-- One iteration of the `for (auto& modif : modifs)` loop of
`WordDB::update_db`.  The state is `(old_line, new_lines, m_words)`; the
two inner `while` loops and the bounded `for` loop become slices of
`m_line_to_words` and of the buffer. -/
def WordDB.update_step (ltw : List (List Word)) (buffer : List (List Char))
    (st : Int × List (List Word) × WordList) (modif : LineModification) :
    Int × List (List Word) × WordList :=
  let old_line := st.1
  let new_lines := st.2.1
  let words := st.2.2
  -- while (old_line < modif.old_line) new_lines.push_back(m_line_to_words[old_line++]);
  let new_lines := new_lines ++ (ltw.drop old_line.toNat).take (modif.old_line - old_line).toNat
  let old_line := max old_line modif.old_line
  -- while (old_line <= modif.old_line + modif.num_removed) remove_words(m_words, m_line_to_words[old_line++]);
  let removed := (ltw.drop old_line.toNat).take (modif.old_line + modif.num_removed + 1 - old_line).toNat
  let words := removed.foldl remove_words words
  let old_line := max old_line (modif.old_line + modif.num_removed + 1)
  -- for (l = 0; l <= num_added; ++l) { if (new_line + l >= line_count) break; … }
  let added := ((buffer.drop modif.new_line.toNat).take
      (min (modif.num_added + 1) (buffer.length - modif.new_line)).toNat).map get_words
  (old_line, new_lines ++ added, added.foldl add_words words)

/-- `WordDB::update_db`.  `modifs` stands for
`compute_line_modifications(buffer, m_timestamp)` (whose implementation is
not in the snapshot): it is empty exactly when the buffer is unchanged.
The final `while (old_line != m_line_to_words.size())` copy loop is the
trailing `drop`. -/
def WordDB.update_db (db : WordDB) (buffer : List (List Char))
    (modifs : List LineModification) (buf_ts : Nat) : WordDB :=
  if modifs.isEmpty then { db with m_timestamp := buf_ts }
  else
    let st := modifs.foldl (WordDB.update_step db.m_line_to_words buffer) (0, [], db.m_words)
    { m_words := st.2.2,
      m_line_to_words := st.2.1 ++ db.m_line_to_words.drop st.1.toNat,
      m_timestamp := buf_ts }

/-- `prefix_match` (modelled from the spec: declared in string.hh, body not
in the snapshot; entries "share the prefix"). -/
def prefix_match (str p : Word) : Bool := List.isPrefixOf p str

/-- `subsequence_match` (modelled from the spec: declared in string.hh,
body not in the snapshot; match iff the needle is a subsequence of the
word, in order, not necessarily contiguous). -/
def subsequence_match : Word → Word → Bool
  | _, [] => true
  | [], _ :: _ => false
  | c :: str, s :: rest =>
    if c = s then subsequence_match str rest
    else subsequence_match str (s :: rest)

/-- `WordDB::find_prefix`: update the database, then scan from
`m_words.lower_bound(prefix)` while the keys share the prefix.  Returns
the answers together with the mutated database. -/
def WordDB.find_prefix (db : WordDB) (buffer : List (List Char))
    (modifs : List LineModification) (buf_ts : Nat) (p : Word) :
    List Word × WordDB :=
  let db2 := WordDB.update_db db buffer modifs buf_ts
  (((db2.m_words.dropWhile (fun kv => wordLt kv.1 p)).takeWhile
      (fun kv => prefix_match kv.1 p)).map Prod.fst,
   db2)

/-- `WordDB::find_subsequence`: update the database, then linearly filter
the word map. -/
def WordDB.find_subsequence (db : WordDB) (buffer : List (List Char))
    (modifs : List LineModification) (buf_ts : Nat) (needle : Word) :
    List Word × WordDB :=
  let db2 := WordDB.update_db db buffer modifs buf_ts
  ((db2.m_words.filter (fun kv => subsequence_match kv.1 needle)).map Prod.fst,
   db2)

/-- `WordDB::get_word_occurences` (a `const` member): direct lookup in the
stored map, with no update. -/
def WordDB.get_word_occurences (db : WordDB) (word : Word) : Nat :=
  match db.m_words.find? (fun kv => kv.1 = word) with
  | some kv => kv.2
  | none => 0

/-- Sum of the occurrence counts over every key of a word list (the left
side of invariant 4 of spec section 8). -/
def wl_count (wl : WordList) : Nat := (List.map Prod.snd wl).sum

/-- Sum of the per-line word-list lengths (the right side of invariant 4
of spec section 8). -/
def line_words_count (l2w : List (List Word)) : Nat := (l2w.map List.length).sum

/-- The word list read as a multiset of words. -/
def wl_multiset (wl : WordList) : Multiset Word :=
  (List.map (fun kv : Word × Nat => Multiset.replicate kv.2 kv.1) wl).sum

/-- The per-line word lists read as one combined multiset. -/
def lines_multiset (l2w : List (List Word)) : Multiset Word :=
  (l2w.map (fun ws => (ws : Multiset Word))).sum

/-- Well-formedness of a word database: positive counts, and the word
multiset is the disjoint union of the per-line multisets. -/
structure WordDB.Wf (db : WordDB) : Prop where
  pos : ∀ kv ∈ db.m_words, 0 < kv.2
  inv : wl_multiset db.m_words = lines_multiset db.m_line_to_words

/-- Database states reachable by construction followed by any sequence of
`update_db` calls. -/
inductive WordDB.Reachable : WordDB → Prop
  | init (buffer : List (List Char)) (ts : Nat) : WordDB.Reachable (WordDB.init buffer ts)
  | update (db : WordDB) (buffer : List (List Char)) (modifs : List LineModification)
      (ts : Nat) : WordDB.Reachable db →
      WordDB.Reachable (WordDB.update_db db buffer modifs ts)

/-! ### Word-database invariants (claims C7, C8) -/

theorem wl_multiset_nil : wl_multiset [] = 0 := rfl

theorem wl_multiset_cons (kv : Word × Nat) (wl : WordList) :
    wl_multiset (kv :: wl) = Multiset.replicate kv.2 kv.1 + wl_multiset wl := by
  simp [wl_multiset]

theorem lines_multiset_nil : lines_multiset [] = 0 := rfl

theorem lines_multiset_cons (ws : List Word) (l2w : List (List Word)) :
    lines_multiset (ws :: l2w) = (ws : Multiset Word) + lines_multiset l2w := by
  simp [lines_multiset]

theorem lines_multiset_append (a b : List (List Word)) :
    lines_multiset (a ++ b) = lines_multiset a + lines_multiset b := by
  simp [lines_multiset]

theorem wlIncr_cons (kv : Word × Nat) (rest : WordList) (w : Word) :
    wlIncr (kv :: rest) w =
      if w = kv.1 then (kv.1, kv.2 + 1) :: rest
      else if wordLt w kv.1 then (w, 1) :: kv :: rest
      else kv :: wlIncr rest w := rfl

theorem wlDecr_cons (kv : Word × Nat) (rest : WordList) (w : Word) :
    wlDecr (kv :: rest) w =
      if w = kv.1 then (if kv.2 ≤ 1 then rest else (kv.1, kv.2 - 1) :: rest)
      else kv :: wlDecr rest w := rfl

theorem wlIncr_multiset (wl : WordList) (w : Word) :
    wl_multiset (wlIncr wl w) = w ::ₘ wl_multiset wl := by
  induction wl with
  | nil => simp [wlIncr, wl_multiset, Multiset.replicate_one]
  | cons kv rest ih =>
    rw [wlIncr_cons]
    by_cases h1 : w = kv.1
    · rw [if_pos h1, wl_multiset_cons, wl_multiset_cons, Multiset.replicate_succ,
        Multiset.cons_add, h1]
    · by_cases h2 : wordLt w kv.1 = true
      · rw [if_neg h1, if_pos h2, wl_multiset_cons, wl_multiset_cons,
          Multiset.replicate_one, Multiset.singleton_add]
      · rw [if_neg h1, if_neg h2, wl_multiset_cons, wl_multiset_cons, ih,
          Multiset.add_cons]

theorem wlIncr_pos {wl : WordList} (h : ∀ kv ∈ wl, 0 < kv.2) (w : Word) :
    ∀ kv ∈ wlIncr wl w, 0 < kv.2 := by
  induction wl with
  | nil =>
    intro kv hkv
    simp only [wlIncr, List.mem_singleton] at hkv
    simp [hkv]
  | cons kv0 rest ih =>
    have hrest : ∀ kv' ∈ rest, 0 < kv'.2 :=
      fun kv' hkv' => h kv' (List.mem_cons_of_mem _ hkv')
    intro kv hkv
    rw [wlIncr_cons] at hkv
    by_cases h1 : w = kv0.1
    · rw [if_pos h1] at hkv
      rcases List.mem_cons.mp hkv with h3 | h3
      · simp [h3]
      · exact hrest kv h3
    · by_cases h2 : wordLt w kv0.1 = true
      · rw [if_neg h1, if_pos h2] at hkv
        rcases List.mem_cons.mp hkv with h3 | h3
        · simp [h3]
        · exact h kv h3
      · rw [if_neg h1, if_neg h2] at hkv
        rcases List.mem_cons.mp hkv with h3 | h3
        · exact h kv (h3 ▸ List.mem_cons_self _ _)
        · exact ih hrest kv h3

theorem wlDecr_multiset {wl : WordList} (h : ∀ kv ∈ wl, 0 < kv.2) (w : Word) :
    wl_multiset (wlDecr wl w) = (wl_multiset wl).erase w := by
  induction wl with
  | nil => simp [wlDecr, wl_multiset]
  | cons kv rest ih =>
    rw [wlDecr_cons]
    by_cases h1 : w = kv.1
    · rw [if_pos h1]
      by_cases h2 : kv.2 ≤ 1
      · have hone : kv.2 = 1 :=
          Nat.le_antisymm h2 (h kv (List.mem_cons_self _ _))
        rw [if_pos h2, wl_multiset_cons, hone, Multiset.replicate_one,
          Multiset.singleton_add, h1, Multiset.erase_cons_head]
      · obtain ⟨n, hn⟩ : ∃ n, kv.2 = n + 1 :=
          ⟨kv.2 - 1, by omega⟩
        rw [if_neg h2, wl_multiset_cons, wl_multiset_cons, hn,
          Multiset.replicate_succ, Multiset.cons_add, h1,
          Multiset.erase_cons_head, Nat.add_sub_cancel]
    · have hrest : ∀ kv' ∈ rest, 0 < kv'.2 :=
        fun kv' hkv' => h kv' (List.mem_cons_of_mem _ hkv')
      have hne : w ∉ Multiset.replicate kv.2 kv.1 := by
        intro hmem
        exact h1 (Multiset.eq_of_mem_replicate hmem)
      rw [if_neg h1, wl_multiset_cons, wl_multiset_cons, ih hrest,
        Multiset.erase_add_right_neg _ hne]

theorem wlDecr_pos {wl : WordList} (h : ∀ kv ∈ wl, 0 < kv.2) (w : Word) :
    ∀ kv ∈ wlDecr wl w, 0 < kv.2 := by
  induction wl with
  | nil => intro kv hkv; simp [wlDecr] at hkv
  | cons kv0 rest ih =>
    have hrest : ∀ kv' ∈ rest, 0 < kv'.2 :=
      fun kv' hkv' => h kv' (List.mem_cons_of_mem _ hkv')
    intro kv hkv
    rw [wlDecr_cons] at hkv
    by_cases h1 : w = kv0.1
    · rw [if_pos h1] at hkv
      by_cases h2 : kv0.2 ≤ 1
      · rw [if_pos h2] at hkv
        exact hrest kv hkv
      · rw [if_neg h2] at hkv
        rcases List.mem_cons.mp hkv with h3 | h3
        · simp [h3]; omega
        · exact hrest kv h3
    · rw [if_neg h1] at hkv
      rcases List.mem_cons.mp hkv with h3 | h3
      · exact h kv (h3 ▸ List.mem_cons_self _ _)
      · exact ih hrest kv h3

theorem add_words_multiset (ws : List Word) :
    ∀ wl : WordList, wl_multiset (add_words wl ws) = (ws : Multiset Word) + wl_multiset wl := by
  induction ws with
  | nil => intro wl; simp [add_words]
  | cons w rest ih =>
    intro wl
    have hstep : add_words wl (w :: rest) = add_words (wlIncr wl w) rest := rfl
    rw [hstep, ih, wlIncr_multiset, ← Multiset.cons_coe, Multiset.cons_add,
      Multiset.add_cons]

theorem add_words_pos {wl : WordList} (h : ∀ kv ∈ wl, 0 < kv.2) (ws : List Word) :
    ∀ kv ∈ add_words wl ws, 0 < kv.2 := by
  induction ws generalizing wl with
  | nil => exact h
  | cons w rest ih => exact ih (wlIncr_pos h w)

theorem remove_words_multiset (ws : List Word) :
    ∀ wl : WordList, (∀ kv ∈ wl, 0 < kv.2) →
      wl_multiset (remove_words wl ws) = wl_multiset wl - (ws : Multiset Word) := by
  induction ws with
  | nil => intro wl _; simp [remove_words]
  | cons w rest ih =>
    intro wl h
    have : remove_words wl (w :: rest) = remove_words (wlDecr wl w) rest := rfl
    rw [this, ih _ (wlDecr_pos h w), wlDecr_multiset h, ← Multiset.sub_cons,
      Multiset.cons_coe]

theorem remove_words_pos {wl : WordList} (h : ∀ kv ∈ wl, 0 < kv.2) (ws : List Word) :
    ∀ kv ∈ remove_words wl ws, 0 < kv.2 := by
  induction ws generalizing wl with
  | nil => exact h
  | cons w rest ih => exact ih (wlDecr_pos h w)

theorem foldl_add_words_multiset (ls : List (List Word)) :
    ∀ wl : WordList,
      wl_multiset (ls.foldl add_words wl) = lines_multiset ls + wl_multiset wl := by
  induction ls with
  | nil => intro wl; simp [lines_multiset]
  | cons l rest ih =>
    intro wl
    rw [List.foldl_cons, ih, add_words_multiset, lines_multiset_cons]
    abel

theorem foldl_add_words_pos {wl : WordList} (h : ∀ kv ∈ wl, 0 < kv.2)
    (ls : List (List Word)) : ∀ kv ∈ ls.foldl add_words wl, 0 < kv.2 := by
  induction ls generalizing wl with
  | nil => exact h
  | cons l rest ih => exact ih (add_words_pos h l)

theorem foldl_remove_words_multiset (ls : List (List Word)) :
    ∀ wl : WordList, (∀ kv ∈ wl, 0 < kv.2) →
      wl_multiset (ls.foldl remove_words wl) = wl_multiset wl - lines_multiset ls := by
  induction ls with
  | nil => intro wl _; simp [lines_multiset]
  | cons l rest ih =>
    intro wl h
    rw [List.foldl_cons, ih _ (remove_words_pos h l), remove_words_multiset _ _ h,
      lines_multiset_cons, tsub_tsub]

theorem foldl_remove_words_pos {wl : WordList} (h : ∀ kv ∈ wl, 0 < kv.2)
    (ls : List (List Word)) : ∀ kv ∈ ls.foldl remove_words wl, 0 < kv.2 := by
  induction ls generalizing wl with
  | nil => exact h
  | cons l rest ih => exact ih (remove_words_pos h l)

/-- Invariant carried through the modification loop of `update_db`. -/
def StepInv (ltw : List (List Word)) (st : Int × List (List Word) × WordList) : Prop :=
  0 ≤ st.1 ∧ (∀ kv ∈ st.2.2, 0 < kv.2) ∧
    wl_multiset st.2.2 = lines_multiset st.2.1 + lines_multiset (ltw.drop st.1.toNat)

theorem drop_decompose (ltw : List (List Word)) (a : Nat) (n : Nat) :
    lines_multiset (ltw.drop a) =
      lines_multiset ((ltw.drop a).take n) + lines_multiset (ltw.drop (a + n)) := by
  rw [← lines_multiset_append]
  congr 1
  rw [← List.drop_drop n a ltw]
  exact (List.take_append_drop n (ltw.drop a)).symm

theorem update_step_inv (ltw : List (List Word)) (buffer : List (List Char))
    (modif : LineModification) (st : Int × List (List Word) × WordList)
    (h : StepInv ltw st) : StepInv ltw (WordDB.update_step ltw buffer st modif) := by
  obtain ⟨o, acc, words⟩ := st
  obtain ⟨ho, hpos, hinv⟩ := h
  simp only [StepInv, WordDB.update_step]
  refine ⟨?_, ?_, ?_⟩
  · omega
  · exact foldl_add_words_pos (foldl_remove_words_pos hpos _) _
  · have h1 : (max o modif.old_line).toNat = o.toNat + (modif.old_line - o).toNat := by
      omega
    have h2 : (max (max o modif.old_line) (modif.old_line + modif.num_removed + 1)).toNat
        = (max o modif.old_line).toNat
          + (modif.old_line + modif.num_removed + 1 - max o modif.old_line).toNat := by
      omega
    rw [foldl_add_words_multiset, foldl_remove_words_multiset _ _ hpos, hinv]
    rw [drop_decompose ltw o.toNat (modif.old_line - o).toNat, ← h1]
    rw [drop_decompose ltw (max o modif.old_line).toNat
      (modif.old_line + modif.num_removed + 1 - max o modif.old_line).toNat, ← h2]
    rw [lines_multiset_append, lines_multiset_append]
    generalize lines_multiset acc = A
    generalize lines_multiset ((ltw.drop o.toNat).take (modif.old_line - o).toNat) = B
    generalize lines_multiset
      ((ltw.drop (max o modif.old_line).toNat).take
        (modif.old_line + modif.num_removed + 1 - max o modif.old_line).toNat) = C
    generalize lines_multiset
      (ltw.drop (max (max o modif.old_line) (modif.old_line + modif.num_removed + 1)).toNat) = D
    generalize lines_multiset
      (((buffer.drop modif.new_line.toNat).take
        (min (modif.num_added + 1) (buffer.length - modif.new_line)).toNat).map get_words) = E
    have hac : A + (B + (C + D)) = C + (A + B + D) := by abel
    rw [hac, add_tsub_cancel_left]
    abel

theorem foldl_update_step_inv (ltw : List (List Word)) (buffer : List (List Char))
    (modifs : List LineModification) :
    ∀ st, StepInv ltw st →
      StepInv ltw (modifs.foldl (WordDB.update_step ltw buffer) st) := by
  induction modifs with
  | nil => intro st h; exact h
  | cons m rest ih =>
    intro st h
    exact ih _ (update_step_inv ltw buffer m st h)

theorem WordDB.init_wf (buffer : List (List Char)) (ts : Nat) :
    (WordDB.init buffer ts).Wf := by
  constructor
  · exact foldl_add_words_pos (by intro kv h; simp at h) _
  · show wl_multiset ((buffer.map get_words).foldl add_words [])
      = lines_multiset (buffer.map get_words)
    rw [foldl_add_words_multiset]
    simp [wl_multiset]

theorem WordDB.update_db_wf (db : WordDB) (buffer : List (List Char))
    (modifs : List LineModification) (ts : Nat) (h : db.Wf) :
    (WordDB.update_db db buffer modifs ts).Wf := by
  unfold WordDB.update_db
  split
  · exact ⟨h.pos, h.inv⟩
  · have hst : StepInv db.m_line_to_words
        (modifs.foldl (WordDB.update_step db.m_line_to_words buffer) (0, [], db.m_words)) := by
      apply foldl_update_step_inv
      refine ⟨le_refl 0, h.pos, ?_⟩
      simpa [lines_multiset] using h.inv
    obtain ⟨h0, hp, hi⟩ := hst
    exact ⟨hp, by rw [hi, lines_multiset_append]⟩

theorem WordDB.reachable_wf (db : WordDB) (h : WordDB.Reachable db) : db.Wf := by
  induction h with
  | init buffer ts => exact WordDB.init_wf buffer ts
  | update db buffer modifs ts _ ih => exact WordDB.update_db_wf db buffer modifs ts ih

theorem wl_multiset_card (wl : WordList) : (wl_multiset wl).card = wl_count wl := by
  induction wl with
  | nil => rfl
  | cons kv rest ih =>
    rw [wl_multiset_cons, Multiset.card_add, Multiset.card_replicate, ih]
    simp [wl_count]

theorem lines_multiset_card (l2w : List (List Word)) :
    (lines_multiset l2w).card = line_words_count l2w := by
  induction l2w with
  | nil => rfl
  | cons l rest ih =>
    rw [lines_multiset_cons, Multiset.card_add, Multiset.coe_card, ih]
    simp [line_words_count]

/-- C7: for every reachable word-database state (after construction and
after every sequence of `update_db` calls), the sum over all keys of
`m_words` equals the sum over all lines of the lengths of
`m_line_to_words`; indeed the word multiset is the disjoint union of the
per-line word multisets. -/
theorem wordDB_sum_invariant (db : WordDB) (h : WordDB.Reachable db) :
    wl_count db.m_words = line_words_count db.m_line_to_words ∧
      wl_multiset db.m_words = lines_multiset db.m_line_to_words := by
  have hw := WordDB.reachable_wf db h
  refine ⟨?_, hw.inv⟩
  rw [← wl_multiset_card, hw.inv, lines_multiset_card]

/-- Witness for C7 at a concrete two-line buffer. -/
theorem wordDB_sum_invariant_witness :
    (wl_count (WordDB.init ["foo bar\n".data, "foobar foo\n".data] 1).m_words
      = line_words_count (WordDB.init ["foo bar\n".data, "foobar foo\n".data] 1).m_line_to_words)
    ∧ wl_count (WordDB.init ["foo bar\n".data, "foobar foo\n".data] 1).m_words = 4 :=
  ⟨(wordDB_sum_invariant _ (WordDB.Reachable.init _ 1)).1, by decide⟩

theorem WordDB.update_db_timestamp (db : WordDB) (buffer : List (List Char))
    (modifs : List LineModification) (ts : Nat) :
    (WordDB.update_db db buffer modifs ts).m_timestamp = ts := by
  unfold WordDB.update_db
  split <;> rfl

/-- C8 counterexample: `get_word_occurences` answers from the stored
multiset without updating.  Starting from a database built over a buffer
containing the word `foo`, after the buffer has changed (timestamp 2,
line 0 rewritten to `bar`), the query still reports one `foo`, although
the up-to-date database contains none: the claim that every query first
brings the database up to date is false for `get_word_occurences`. -/
theorem get_word_occurences_stale_cex :
    (WordDB.m_timestamp ⟨[("foo".data, 1)], [["foo".data]], 1⟩ ≠ 2) ∧
    WordDB.get_word_occurences ⟨[("foo".data, 1)], [["foo".data]], 1⟩ "foo".data = 1 ∧
    WordDB.get_word_occurences
      (WordDB.update_db ⟨[("foo".data, 1)], [["foo".data]], 1⟩
        ["bar\n".data] [⟨0, 0, 0, 0⟩] 2) "foo".data = 0 := by
  refine ⟨by decide, by decide, by decide⟩

/-- C8 (amended): `find_prefix` and `find_subsequence` first bring the
database up to date (their resulting state is exactly `update_db`'s and
carries the buffer timestamp) and answer from the updated word multiset,
whereas `get_word_occurences` reads only the stored `m_words` (it does
not consult the buffer at all, and can answer from a stale multiset). -/
theorem word_db_queries_amended :
    ∀ (db : WordDB) (buffer : List (List Char)) (modifs : List LineModification)
      (ts : Nat) (p needle word : Word),
      ( WordDB.find_prefix db buffer modifs ts p).2 = WordDB.update_db db buffer modifs ts ∧
      ( WordDB.find_prefix db buffer modifs ts p).2.m_timestamp = ts ∧
      (∀ w ∈ ( WordDB.find_prefix db buffer modifs ts p).1,
        prefix_match w p = true ∧
          ∃ kv ∈ (WordDB.update_db db buffer modifs ts).m_words, kv.1 = w) ∧
      (WordDB.find_subsequence db buffer modifs ts needle).2
        = WordDB.update_db db buffer modifs ts ∧
      (WordDB.find_subsequence db buffer modifs ts needle).2.m_timestamp = ts ∧
      (∀ w ∈ (WordDB.find_subsequence db buffer modifs ts needle).1,
        subsequence_match w needle = true ∧
          ∃ kv ∈ (WordDB.update_db db buffer modifs ts).m_words, kv.1 = w) ∧
      (∀ (l2w : List (List Word)) (ts2 : Nat),
        WordDB.get_word_occurences ⟨db.m_words, l2w, ts2⟩ word
          = WordDB.get_word_occurences db word) := by
  intro db buffer modifs ts p needle word
  refine ⟨rfl, WordDB.update_db_timestamp db buffer modifs ts, ?_, rfl,
    WordDB.update_db_timestamp db buffer modifs ts, ?_, fun l2w ts2 => rfl⟩
  · intro w hw
    obtain ⟨kv, hkv, rfl⟩ := List.mem_map.mp hw
    refine ⟨?_, kv, ?_, rfl⟩
    · exact @List.mem_takeWhile_imp (Word × Nat)
        (fun kv : Word × Nat => prefix_match kv.1 p) _ kv hkv
    · have h1 := (List.takeWhile_sublist
        (fun kv : Word × Nat => prefix_match kv.1 p)).mem hkv
      exact (List.dropWhile_sublist (fun kv : Word × Nat => wordLt kv.1 p)).mem h1
  · intro w hw
    obtain ⟨kv, hkv, rfl⟩ := List.mem_map.mp hw
    have := List.mem_filter.mp hkv
    exact ⟨this.2, kv, this.1, rfl⟩

/-- Witness instantiating the amended C8 theorem at a concrete query. -/
theorem word_db_queries_amended_witness :
    ( WordDB.find_prefix ⟨[("foo".data, 1)], [["foo".data]], 1⟩
        ["bar\n".data] [⟨0, 0, 0, 0⟩] 2 "fo".data).2
      = WordDB.update_db ⟨[("foo".data, 1)], [["foo".data]], 1⟩
          ["bar\n".data] [⟨0, 0, 0, 0⟩] 2 :=
  (word_db_queries_amended ⟨[("foo".data, 1)], [["foo".data]], 1⟩
    ["bar\n".data] [⟨0, 0, 0, 0⟩] 2 "fo".data [] []).1

/-! ## Regex match lists (highlighters.cc: RegexMatch, find_matches,
update_matches) -/

/-- `RegexMatch` from highlighters.cc.  (`end` is a Lean keyword, hence
the trailing underscore.) -/
structure RegexMatch where
  timestamp : Nat
  line : Int
  begin : Int
  end_ : Int
deriving DecidableEq, Repr

/-- `RegexMatch::begin_coord`. -/
def RegexMatch.begin_coord (m : RegexMatch) : ByteCoord := ⟨m.line, m.begin⟩

/-- `RegexMatch::end_coord`. -/
def RegexMatch.end_coord (m : RegexMatch) : ByteCoord := ⟨m.line, m.end_⟩

/-- A compiled regex is abstracted by its per-line scan: the list of
`(begin, end)` byte offsets that `boost::regex_iterator` produces on one
line, in order of appearance. -/
abbrev LineMatcher : Type := List Char → List (Int × Int)

/-- The per-line loop of `find_matches`, starting at a given line
number. -/
def findFrom (re : LineMatcher) (ts : Nat) : Int → List (List Char) → List RegexMatch
  | _, [] => []
  | line, l :: rest =>
      ((re l).map fun be => ⟨ts, line, be.1, be.2⟩) ++ findFrom re ts (line + 1) rest

/-- `find_matches` from highlighters.cc: scan every line of the buffer. -/
def find_matches (buffer : List (List Char)) (re : LineMatcher) (ts : Nat) :
    List RegexMatch :=
  findFrom re ts 0 buffer

/-- The first pass of `update_matches` for one cached match: locate the
first modification with `old_line ≥ line` (`std::lower_bound`), erase the
match when its line was touched or shifted out of the buffer, otherwise
shift its line by the preceding modification's `diff()`. -/
def survive (modifs : List LineModification) (line_count : Int) (ts : Nat)
    (m : RegexMatch) : Option RegexMatch :=
  let i := (modifs.takeWhile (fun c => c.old_line < m.line)).length
  let erase1 : Bool :=
    ((modifs.get? i).map (fun md => decide (md.old_line = m.line))).getD false
  let upd : Bool × Int :=
    if erase1 = false ∧ 0 < i then
      ((modifs.get? (i - 1)).map
        (fun prev => (decide (m.line ≤ prev.old_line + prev.num_removed),
                      m.line + prev.diff))).getD (false, m.line)
    else (false, m.line)
  if erase1 || upd.1 || decide (line_count ≤ upd.2) then none
  else some { m with line := upd.2, timestamp := ts }

/-- Fuelled worker for the stable merge (the fuel only bounds the total
number of steps; `mergeMatches` supplies enough of it). -/
def mergeGo : Nat → List RegexMatch → List RegexMatch → List RegexMatch
  | 0, xs, ys => xs ++ ys
  | _ + 1, [], ys => ys
  | _ + 1, x :: xs, [] => x :: xs
  | n + 1, x :: xs, y :: ys =>
    if y.begin_coord < x.begin_coord then y :: mergeGo n (x :: xs) ys
    else x :: mergeGo n xs (y :: ys)

/-- The `std::inplace_merge` at the end of `update_matches`: a stable
merge by `begin_coord` of the surviving and the freshly found matches
(an element of the second run is taken only when strictly smaller). -/
def mergeMatches (xs ys : List RegexMatch) : List RegexMatch :=
  mergeGo (xs.length + ys.length) xs ys

/-- The second pass of `update_matches`: for every modification, rescan
the buffer lines `[new_line, new_line + num_added]`, stopping at the end
of the buffer. -/
def freshScan (buffer : List (List Char)) (modifs : List LineModification)
    (re : LineMatcher) (ts : Nat) : List RegexMatch :=
  modifs.flatMap (fun modif =>
    (List.range (min (modif.new_line + modif.num_added + 1) (buffer.length : Int)
        - modif.new_line).toNat).flatMap
      (fun k =>
        let line := modif.new_line + k
        (re (buffer.getD line.toNat [])).map fun be => ⟨ts, line, be.1, be.2⟩))

/-- `update_matches` from highlighters.cc: drop/shift the cached matches,
rescan the lines `[new_line, new_line + num_added]` of every modification
(clamped to the buffer), and merge the two sorted runs. -/
def update_matches (buffer : List (List Char)) (modifs : List LineModification)
    (ms : List RegexMatch) (re : LineMatcher) (ts : Nat) : List RegexMatch :=
  mergeMatches (ms.filterMap (survive modifs (buffer.length : Int) ts))
    (freshScan buffer modifs re ts)

/-! ### Equivalence of the incremental update with a full rescan (claim C1) -/

/-- Strict order on matches by `(line, begin)`, the `inplace_merge`
comparison. -/
def matchLt (a b : RegexMatch) : Prop := a.begin_coord < b.begin_coord

/-- A line matcher is well formed when, on every line, the produced match
begins are strictly increasing (as they are for `boost::regex_iterator`,
which never yields two matches starting at the same position). -/
def LineMatcherWf (re : LineMatcher) : Prop :=
  ∀ l, (re l).Pairwise (fun p q => p.1 < q.1)

theorem findFrom_append (re : LineMatcher) (ts : Nat) (A : List (List Char)) :
    ∀ (off : Int) (B : List (List Char)),
      findFrom re ts off (A ++ B)
        = findFrom re ts off A ++ findFrom re ts (off + A.length) B := by
  induction A with
  | nil => intro off B; simp [findFrom]
  | cons l rest ih =>
    intro off B
    have hcast : off + 1 + (rest.length : Int) = off + ((l :: rest).length : Int) := by
      simp only [List.length_cons]
      push_cast
      ring
    simp only [List.cons_append, findFrom, List.append_eq, ih (off + 1) B,
      List.append_assoc, hcast]

theorem findFrom_mem (re : LineMatcher) (ts : Nat) :
    ∀ (L : List (List Char)) (off : Int) (m : RegexMatch),
      m ∈ findFrom re ts off L →
      off ≤ m.line ∧ m.line < off + L.length ∧ m.timestamp = ts := by
  intro L
  induction L with
  | nil => intro off m hm; simp [findFrom] at hm
  | cons l rest ih =>
    intro off m hm
    simp only [findFrom, List.mem_append] at hm
    rcases hm with hm | hm
    · obtain ⟨be, _, rfl⟩ := List.mem_map.mp hm
      refine ⟨le_refl off, ?_, rfl⟩
      simp only [List.length_cons]
      push_cast
      omega
    · obtain ⟨h1, h2, h3⟩ := ih (off + 1) m hm
      refine ⟨by omega, ?_, h3⟩
      simp only [List.length_cons]
      push_cast at h2 ⊢
      omega

theorem findFrom_pairwise (re : LineMatcher) (hre : LineMatcherWf re) (ts : Nat) :
    ∀ (L : List (List Char)) (off : Int),
      (findFrom re ts off L).Pairwise matchLt := by
  intro L
  induction L with
  | nil => intro off; simp [findFrom]
  | cons l rest ih =>
    intro off
    simp only [findFrom]
    rw [List.pairwise_append]
    refine ⟨?_, ih (off + 1), ?_⟩
    · exact List.Pairwise.map _
        (fun p q h => by
          simp [matchLt, RegexMatch.begin_coord, ByteCoord.lt_def, h])
        (hre l)
    · intro a ha b hb
      obtain ⟨be, _, rfl⟩ := List.mem_map.mp ha
      have hbl := (findFrom_mem re ts rest (off + 1) b hb).1
      simp only [matchLt, RegexMatch.begin_coord, ByteCoord.lt_def]
      exact Or.inl (by omega)

/-- `takeWhile` walks through an entire prefix that satisfies the
predicate. -/
theorem takeWhile_append_all {α : Type} (p : α → Bool) (A B : List α)
    (h : ∀ x ∈ A, p x = true) :
    (A ++ B).takeWhile p = A ++ B.takeWhile p := by
  induction A with
  | nil => simp
  | cons a rest ih =>
    simp only [List.cons_append, List.takeWhile_cons, h a (List.mem_cons_self _ _),
      if_true]
    rw [ih fun x hx => h x (List.mem_cons_of_mem _ hx)]

/-- `takeWhile` stops at the head of a failing suffix. -/
theorem takeWhile_eq_nil_of_head {α : Type} (p : α → Bool) (B : List α)
    (h : ∀ x ∈ B.head?, p x = false) : B.takeWhile p = [] := by
  cases B with
  | nil => rfl
  | cons b rest =>
    have hb : p b = false := h b (by simp)
    simp [List.takeWhile_cons, hb]

/-- Validity of a line-modification list (modelled from the spec, section
4.4: `compute_line_modifications` is not in the snapshot).  `oOff`/`nOff`
are the first old/new lines not covered by the already-consumed
modifications; each modification replaces the `num_removed + 1` old lines
starting at `old_line` by the `num_added + 1` new lines starting at
`new_line`, after a common unmodified chunk of length `p` (so
`new_line = old_line + Σ prior diffs`); past the last modification the
two buffers agree line for line. -/
inductive Decomp (old new : List (List Char)) :
    List LineModification → Int → Int → Prop where
  | nil (oOff nOff : Int) (ho : 0 ≤ oOff) (hn : 0 ≤ nOff)
      (heq : old.drop oOff.toNat = new.drop nOff.toNat) :
      Decomp old new [] oOff nOff
  | cons (p : Nat) (md : LineModification) (rest : List LineModification)
      (oOff nOff : Int) (ho : 0 ≤ oOff) (hn : 0 ≤ nOff)
      (hol : md.old_line = oOff + p) (hnl : md.new_line = nOff + p)
      (hr : 0 ≤ md.num_removed) (ha : 0 ≤ md.num_added)
      (hob : md.old_line + md.num_removed < old.length)
      (hnb : md.new_line + md.num_added < new.length)
      (hpre : (old.drop oOff.toNat).take p = (new.drop nOff.toNat).take p)
      (hrest : Decomp old new rest (md.old_line + md.num_removed + 1)
        (md.new_line + md.num_added + 1)) :
      Decomp old new (md :: rest) oOff nOff

theorem Decomp.old_line_lb {old new : List (List Char)}
    {ms : List LineModification} {oOff nOff : Int}
    (h : Decomp old new ms oOff nOff) :
    ∀ md ∈ ms, oOff ≤ md.old_line := by
  induction h with
  | nil => intro md hmd; simp at hmd
  | cons p md rest oOff nOff ho hn hol hnl hr ha hob hnb hpre hrest ih =>
    intro md' hmd'
    rcases List.mem_cons.mp hmd' with rfl | hmd'
    · omega
    · have := ih md' hmd'
      omega

theorem Decomp.new_line_lb {old new : List (List Char)}
    {ms : List LineModification} {oOff nOff : Int}
    (h : Decomp old new ms oOff nOff) :
    ∀ md ∈ ms, nOff ≤ md.new_line := by
  induction h with
  | nil => intro md hmd; simp at hmd
  | cons p md rest oOff nOff ho hn hol hnl hr ha hob hnb hpre hrest ih =>
    intro md' hmd'
    rcases List.mem_cons.mp hmd' with rfl | hmd'
    · omega
    · have := ih md' hmd'
      omega

/-- Facts about the already-processed prefix of the modification list:
all of its modifications act strictly before `oOff`, and its cumulative
diff is `nOff - oOff`. -/
def DoneInv (done : List LineModification) (oOff nOff : Int) : Prop :=
  (∀ d ∈ done, d.old_line + d.num_removed < oOff ∧ 0 ≤ d.num_removed) ∧
  (done = [] → nOff = oOff) ∧
  (∀ dl, done.getLast? = some dl → dl.diff = nOff - oOff)

theorem survive_of_uncovered {done todo F : List LineModification}
    {oOff nOff count : Int} (ts t0 : Nat)
    (hF : F = done ++ todo) (hd : DoneInv done oOff nOff)
    {l : Int} (htodo : ∀ md ∈ todo, l < md.old_line)
    (hl : oOff ≤ l) (hcount : l + (nOff - oOff) < count) (b e : Int) :
    survive F count ts ⟨t0, l, b, e⟩ = some ⟨ts, l + (nOff - oOff), b, e⟩ := by
  obtain ⟨hdone, hnil, hlast⟩ := hd
  have hpredDone : ∀ d ∈ done, (decide (d.old_line < (l : Int))) = true := by
    intro d hdm
    have := hdone d hdm
    simp only [decide_eq_true_eq]
    omega
  have htw : F.takeWhile (fun c => decide (c.old_line < l)) = done := by
    rw [hF, takeWhile_append_all _ _ _ hpredDone,
      takeWhile_eq_nil_of_head, List.append_nil]
    intro x hx
    have hxm : x ∈ todo := List.mem_of_mem_head? hx
    simp only [decide_eq_false_iff_not, not_lt]
    exact le_of_lt (htodo x hxm)
  have herase1 :
      ((F.get? done.length).map (fun md => decide (md.old_line = l))).getD false
        = false := by
    rw [hF, List.get?_append_right (le_refl done.length), Nat.sub_self]
    cases htd : todo.get? 0 with
    | none => rfl
    | some md0 =>
      have hm : md0 ∈ todo := List.get?_mem htd
      have := htodo md0 hm
      simp only [Option.map_some', Option.getD_some, decide_eq_false_iff_not]
      omega
  rcases hdn : done with _ | ⟨d, ds⟩
  · have h0 : nOff = oOff := hnil hdn
    have hc : (decide (count ≤ l)) = false := by
      simp only [decide_eq_false_iff_not, not_le]
      omega
    have hl0 : l + (nOff - oOff) = l := by omega
    rw [hl0]
    have h00 : ((F.get? 0).map (fun md => decide (md.old_line = l))).getD false
        = false := by
      have := herase1
      rw [hdn] at this
      simpa using this
    rw [hdn] at htw
    simp only [survive, htw, List.length_nil, lt_irrefl, and_false, if_false, h00, hc]
    simp
  · have hlen : 0 < done.length := by rw [hdn]; simp
    have hgl : F.get? (done.length - 1) = done.getLast? := by
      rw [hF, List.get?_append (by omega), List.getLast?_eq_get?]
    obtain ⟨dl, hdl⟩ : ∃ dl, done.getLast? = some dl := by
      rw [hdn]
      exact ⟨(d :: ds).getLast (by simp), List.getLast?_eq_getLast _ _⟩
    have hdlm : dl ∈ done := by
      rw [List.getLast?_eq_get?] at hdl
      exact List.get?_mem hdl
    have hediff : dl.diff = nOff - oOff := hlast dl hdl
    have hbound := hdone dl hdlm
    have h1 : (decide (l ≤ dl.old_line + dl.num_removed)) = false := by
      simp only [decide_eq_false_iff_not, not_le]
      omega
    have h2 : (decide (count ≤ l + dl.diff)) = false := by
      rw [hediff]
      simp only [decide_eq_false_iff_not, not_le]
      omega
    simp only [survive, htw, herase1]
    simp only [hlen, true_and, and_true, eq_self_iff_true, if_true, hgl, hdl,
      Option.map_some', Option.getD_some, h1, hediff, h2, Bool.false_or,
      Bool.or_false, Bool.or_self, if_false]
    simp
    omega

theorem survive_covered {done F : List LineModification}
    {md : LineModification} {rest : List LineModification}
    {oOff count : Int} (ts t0 : Nat)
    (hF : F = done ++ md :: rest)
    (hdone : ∀ d ∈ done, d.old_line + d.num_removed < oOff ∧ 0 ≤ d.num_removed)
    (hol : oOff ≤ md.old_line)
    (hrest_lb : ∀ md' ∈ rest, md.old_line + md.num_removed + 1 ≤ md'.old_line)
    {l : Int} (hl1 : md.old_line ≤ l) (hl2 : l ≤ md.old_line + md.num_removed)
    (b e : Int) :
    survive F count ts ⟨t0, l, b, e⟩ = none := by
  have hpredDone : ∀ d ∈ done, (decide (d.old_line < (l : Int))) = true := by
    intro d hdm
    have := hdone d hdm
    simp only [decide_eq_true_eq]
    omega
  rcases eq_or_lt_of_le hl1 with heq | hlt
  · -- l is exactly the modified line: erased by the first test
    have htw : F.takeWhile (fun c => decide (c.old_line < l)) = done := by
      rw [hF, takeWhile_append_all _ _ _ hpredDone,
        takeWhile_eq_nil_of_head, List.append_nil]
      intro x hx
      simp only [List.head?_cons] at hx
      have hxe : md = x := by simpa using hx
      subst hxe
      simp only [decide_eq_false_iff_not, not_lt]
      omega
    have hget : F.get? done.length = some md := by
      rw [hF, List.get?_append_right (le_refl done.length), Nat.sub_self]
      rfl
    have he1 : (decide (md.old_line = l)) = true := decide_eq_true heq
    simp only [survive, htw, hget, Option.map_some', Option.getD_some, he1,
      Bool.true_or, if_true]
  · -- l lies inside the removed range: erased by the second test
    have htw : F.takeWhile (fun c => decide (c.old_line < l)) = done ++ [md] := by
      rw [hF, takeWhile_append_all _ _ _ hpredDone]
      congr 1
      rw [List.takeWhile_cons, if_pos (decide_eq_true hlt)]
      rw [takeWhile_eq_nil_of_head]
      intro x hx
      have hxm : x ∈ rest := List.mem_of_mem_head? hx
      have := hrest_lb x hxm
      simp only [decide_eq_false_iff_not, not_lt]
      omega
    have hlen : (done ++ [md]).length = done.length + 1 := by simp
    have herase1 :
        ((F.get? (done.length + 1)).map (fun md' => decide (md'.old_line = l))).getD false
          = false := by
      have hg : F.get? (done.length + 1) = rest.get? 0 := by
        rw [hF, List.get?_append_right (by omega)]
        simp
      rw [hg]
      cases htd : rest.get? 0 with
      | none => rfl
      | some md0 =>
        have hm : md0 ∈ rest := List.get?_mem htd
        have := hrest_lb md0 hm
        simp only [Option.map_some', Option.getD_some, decide_eq_false_iff_not]
        omega
    have hgetp : F.get? (done.length + 1 - 1) = some md := by
      rw [hF, Nat.add_sub_cancel, List.get?_append_right (le_refl done.length),
        Nat.sub_self]
      rfl
    have he2 : (decide (l ≤ md.old_line + md.num_removed)) = true := decide_eq_true hl2
    simp only [survive, htw, hlen, herase1, hgetp, eq_self_iff_true,
      Nat.zero_lt_succ, true_and, and_true, if_true, Option.map_some',
      Option.getD_some, he2, Bool.true_or, Bool.or_true]

theorem filterMap_all_some {α β : Type} (f : α → Option β) (g : α → β) :
    ∀ l : List α, (∀ x ∈ l, f x = some (g x)) → l.filterMap f = l.map g := by
  intro l
  induction l with
  | nil => intro _; rfl
  | cons a rest ih =>
    intro h
    rw [List.map_cons, List.filterMap_cons, h a (List.mem_cons_self _ _),
      ih fun x hx => h x (List.mem_cons_of_mem _ hx)]

theorem filterMap_all_none {α β : Type} (f : α → Option β) :
    ∀ l : List α, (∀ x ∈ l, f x = none) → l.filterMap f = [] := by
  intro l
  induction l with
  | nil => intro _; rfl
  | cons a rest ih =>
    intro h
    rw [List.filterMap_cons, h a (List.mem_cons_self _ _),
      ih fun x hx => h x (List.mem_cons_of_mem _ hx)]

/-- Splitting a drop into a take plus a later drop. -/
theorem drop_split {α : Type} (L : List α) (a n : Nat) :
    L.drop a = (L.drop a).take n ++ L.drop (a + n) := by
  conv_lhs => rw [← List.take_append_drop n (L.drop a)]
  rw [List.drop_drop]

theorem filterMap_survive_chunk_some (re : LineMatcher) (t0 ts : Nat)
    (F : List LineModification) (count : Int) (Δ : Int) :
    ∀ (P : List (List Char)) (off : Int),
      (∀ l : Int, off ≤ l → l < off + P.length →
        ∀ b e : Int, survive F count ts ⟨t0, l, b, e⟩ = some ⟨ts, l + Δ, b, e⟩) →
      (findFrom re t0 off P).filterMap (survive F count ts)
        = findFrom re ts (off + Δ) P := by
  intro P
  induction P with
  | nil => intro off _; rfl
  | cons lc rest ih =>
    intro off h
    simp only [findFrom, List.filterMap_append]
    have hchunk :
        (List.map (fun be : Int × Int =>
            ({ timestamp := t0, line := off, begin := be.1, end_ := be.2 } : RegexMatch))
          (re lc)).filterMap (survive F count ts)
        = List.map (fun be : Int × Int =>
            ({ timestamp := ts, line := off + Δ, begin := be.1, end_ := be.2 } : RegexMatch))
          (re lc) := by
      rw [List.filterMap_map]
      apply filterMap_all_some
      intro be _
      have hb : off < off + ((lc :: rest).length : Int) := by
        simp only [List.length_cons]
        push_cast
        omega
      exact h off (le_refl off) hb be.1 be.2
    have htail := ih (off + 1) (fun l hl1 hl2 b e => by
      refine h l (by omega) ?_ b e
      simp only [List.length_cons]
      push_cast at hl2 ⊢
      omega)
    rw [hchunk, htail, show off + 1 + Δ = off + Δ + 1 by ring]

theorem filterMap_survive_chunk_none (re : LineMatcher) (t0 ts : Nat)
    (F : List LineModification) (count : Int) :
    ∀ (P : List (List Char)) (off : Int),
      (∀ l : Int, off ≤ l → l < off + P.length →
        ∀ b e : Int, survive F count ts ⟨t0, l, b, e⟩ = none) →
      (findFrom re t0 off P).filterMap (survive F count ts) = [] := by
  intro P
  induction P with
  | nil => intro off _; rfl
  | cons lc rest ih =>
    intro off h
    simp only [findFrom, List.filterMap_append, List.append_eq_nil]
    constructor
    · rw [List.filterMap_map]
      apply filterMap_all_none
      intro be _
      have hb : off < off + ((lc :: rest).length : Int) := by
        simp only [List.length_cons]
        push_cast
        omega
      exact h off (le_refl off) hb be.1 be.2
    · exact ih (off + 1) (fun l hl1 hl2 b e => by
        refine h l (by omega) ?_ b e
        simp only [List.length_cons]
        push_cast at hl2 ⊢
        omega)

/-- Does some modification's rescanned range `[new_line, new_line +
num_added]` contain the line? -/
def isModifiedBy (modifs : List LineModification) (l : Int) : Bool :=
  modifs.any (fun md => decide (md.new_line ≤ l) && decide (l ≤ md.new_line + md.num_added))

theorem isModifiedBy_iff (modifs : List LineModification) (l : Int) :
    isModifiedBy modifs l = true
      ↔ ∃ md ∈ modifs, md.new_line ≤ l ∧ l ≤ md.new_line + md.num_added := by
  simp [isModifiedBy, List.any_eq_true]

/-- The erase/shift pass of `update_matches`, applied to a full scan of
the old buffer, yields exactly the new buffer's matches on unmodified
lines. -/
theorem survivors_eq (re : LineMatcher) (t0 t1 : Nat)
    {old new : List (List Char)} :
    ∀ {todo : List LineModification} {oOff nOff : Int},
      Decomp old new todo oOff nOff →
      ∀ (done F : List LineModification), F = done ++ todo →
        DoneInv done oOff nOff →
        (findFrom re t0 oOff (old.drop oOff.toNat)).filterMap
          (survive F (new.length : Int) t1)
        = (findFrom re t1 nOff (new.drop nOff.toNat)).filter
            (fun m => !(isModifiedBy todo m.line)) := by
  intro todo oOff nOff hdec
  induction hdec with
  | nil oOff nOff ho hn heq =>
    intro done F hF hd
    have hlenO : (old.drop oOff.toNat).length = old.length - oOff.toNat :=
      List.length_drop _ _
    have hlenN : (new.drop nOff.toNat).length = new.length - nOff.toNat :=
      List.length_drop _ _
    have hlen : old.length - oOff.toNat = new.length - nOff.toNat := by
      have h3 := congrArg List.length heq
      rwa [hlenO, hlenN] at h3
    have hs : ∀ l : Int, oOff ≤ l → l < oOff + (old.drop oOff.toNat).length →
        ∀ b e : Int, survive F (new.length : Int) t1 ⟨t0, l, b, e⟩
          = some ⟨t1, l + (nOff - oOff), b, e⟩ := by
      intro l hl1 hl2 b e
      refine survive_of_uncovered t1 t0 hF hd (fun md hmd => by simp at hmd) hl1 ?_ b e
      rw [hlenO] at hl2
      omega
    rw [filterMap_survive_chunk_some re t0 t1 F (new.length : Int) (nOff - oOff)
      (old.drop oOff.toNat) oOff hs, heq, show oOff + (nOff - oOff) = nOff by ring]
    symm
    apply List.filter_eq_self.mpr
    intro m _
    simp [isModifiedBy]
  | cons p md rest oOff nOff ho hn hol hnl hr ha hob hnb hpre hrest ih =>
    intro done F hF hd
    obtain ⟨hdone, hnil0, hlast0⟩ := hd
    have hrest_olb := Decomp.old_line_lb hrest
    have hrest_nlb := Decomp.new_line_lb hrest
    -- abbreviations for the numeric bookkeeping
    have hoN : (oOff.toNat : Int) = oOff := Int.toNat_of_nonneg ho
    have hnN : (nOff.toNat : Int) = nOff := Int.toNat_of_nonneg hn
    have hrN : (md.num_removed.toNat : Int) = md.num_removed := Int.toNat_of_nonneg hr
    have haN : (md.num_added.toNat : Int) = md.num_added := Int.toNat_of_nonneg ha
    have hoN' : (md.old_line + md.num_removed + 1).toNat
        = oOff.toNat + p + (md.num_removed.toNat + 1) := by omega
    have hnN' : (md.new_line + md.num_added + 1).toNat
        = nOff.toNat + p + (md.num_added.toNat + 1) := by omega
    -- chunk lengths
    have hPlen : ((old.drop oOff.toNat).take p).length = p := by
      rw [List.length_take, List.length_drop]
      omega
    have hP'len : ((new.drop nOff.toNat).take p).length = p := by
      rw [List.length_take, List.length_drop]
      omega
    have hRlen : ((old.drop (oOff.toNat + p)).take (md.num_removed.toNat + 1)).length
        = md.num_removed.toNat + 1 := by
      rw [List.length_take, List.length_drop]
      omega
    have hAlen : ((new.drop (nOff.toNat + p)).take (md.num_added.toNat + 1)).length
        = md.num_added.toNat + 1 := by
      rw [List.length_take, List.length_drop]
      omega
    -- the left-hand side: split the old tail into P ++ R ++ T
    conv_lhs =>
      rw [drop_split old oOff.toNat p, drop_split old (oOff.toNat + p)
        (md.num_removed.toNat + 1)]
    rw [findFrom_append, findFrom_append, List.filterMap_append, List.filterMap_append]
    -- the right-hand side: split the new tail into P' ++ A ++ T'
    conv_rhs =>
      rw [drop_split new nOff.toNat p, drop_split new (nOff.toNat + p)
        (md.num_added.toNat + 1)]
    rw [findFrom_append, findFrom_append, List.filter_append, List.filter_append]
    -- P chunk of the left-hand side survives with shift nOff - oOff
    have hchunkP :
        (findFrom re t0 oOff ((old.drop oOff.toNat).take p)).filterMap
          (survive F (new.length : Int) t1)
        = findFrom re t1 (oOff + (nOff - oOff)) ((old.drop oOff.toNat).take p) := by
      apply filterMap_survive_chunk_some
      intro l hl1 hl2 b e
      rw [hPlen] at hl2
      refine survive_of_uncovered t1 t0 hF ⟨hdone, hnil0, hlast0⟩ ?_ hl1 ?_ b e
      · intro md' hmd'
        rcases List.mem_cons.mp hmd' with rfl | hmd'
        · omega
        · have := hrest_olb md' hmd'
          omega
      · omega
    -- R chunk of the left-hand side is erased
    have hchunkR :
        (findFrom re t0 (oOff + (((old.drop oOff.toNat).take p).length : Int))
            ((old.drop (oOff.toNat + p)).take (md.num_removed.toNat + 1))).filterMap
          (survive F (new.length : Int) t1) = [] := by
      apply filterMap_survive_chunk_none
      intro l hl1 hl2 b e
      rw [hRlen] at hl2
      rw [hPlen] at hl1 hl2
      refine survive_covered t1 t0 hF hdone (by omega) ?_ (by omega) (by omega) b e
      intro md' hmd'
      exact hrest_olb md' hmd'
    -- T chunk of the left-hand side is handled by the induction hypothesis
    have hdone' : DoneInv (done ++ [md]) (md.old_line + md.num_removed + 1)
        (md.new_line + md.num_added + 1) := by
      refine ⟨?_, ?_, ?_⟩
      · intro d hdm
        rcases List.mem_append.mp hdm with hdm | hdm
        · have := hdone d hdm
          omega
        · rcases List.mem_singleton.mp hdm with rfl
          omega
      · intro h
        simp at h
      · intro dl hdl
        rw [List.getLast?_concat] at hdl
        obtain rfl := Option.some.inj hdl
        simp only [LineModification.diff]
        omega
    have hchunkT := ih (done ++ [md]) F
      (by rw [hF, List.append_assoc, List.singleton_append]) hdone'
    -- put the left-hand side together
    rw [hchunkP, hchunkR]
    rw [show oOff + (((old.drop oOff.toNat).take p).length : Int)
          + (((old.drop (oOff.toNat + p)).take (md.num_removed.toNat + 1)).length : Int)
        = md.old_line + md.num_removed + 1 by rw [hPlen, hRlen]; push_cast; omega]
    rw [show oOff.toNat + p + (md.num_removed.toNat + 1)
        = (md.old_line + md.num_removed + 1).toNat by omega]
    rw [hchunkT]
    -- the three chunks of the right-hand side
    have hfP :
        (findFrom re t1 nOff ((new.drop nOff.toNat).take p)).filter
          (fun m => !(isModifiedBy (md :: rest) m.line))
        = findFrom re t1 nOff ((new.drop nOff.toNat).take p) := by
      apply List.filter_eq_self.mpr
      intro m hm
      have hb := findFrom_mem re t1 _ nOff m hm
      rw [hP'len] at hb
      have hfalse : ¬ (isModifiedBy (md :: rest) m.line = true) := by
        rw [isModifiedBy_iff]
        rintro ⟨md', hmd', h1, h2⟩
        rcases List.mem_cons.mp hmd' with rfl | hmd'
        · omega
        · have := hrest_nlb md' hmd'
          omega
      simp only [Bool.not_eq_true] at hfalse
      simp [hfalse]
    have hfA :
        (findFrom re t1 (nOff + (((new.drop nOff.toNat).take p).length : Int))
            ((new.drop (nOff.toNat + p)).take (md.num_added.toNat + 1))).filter
          (fun m => !(isModifiedBy (md :: rest) m.line)) = [] := by
      apply List.filter_eq_nil.mpr
      intro m hm
      have hb := findFrom_mem re t1 _ _ m hm
      rw [hAlen] at hb
      rw [hP'len] at hb
      have htrue : isModifiedBy (md :: rest) m.line = true := by
        rw [isModifiedBy_iff]
        exact ⟨md, List.mem_cons_self _ _, by omega, by omega⟩
      simp [htrue]
    have hfT :
        (findFrom re t1 (nOff + (((new.drop nOff.toNat).take p).length : Int)
              + (((new.drop (nOff.toNat + p)).take (md.num_added.toNat + 1)).length : Int))
            (new.drop (nOff.toNat + p + (md.num_added.toNat + 1)))).filter
          (fun m => !(isModifiedBy (md :: rest) m.line))
        = (findFrom re t1 (nOff + (((new.drop nOff.toNat).take p).length : Int)
              + (((new.drop (nOff.toNat + p)).take (md.num_added.toNat + 1)).length : Int))
            (new.drop (nOff.toNat + p + (md.num_added.toNat + 1)))).filter
          (fun m => !(isModifiedBy rest m.line)) := by
      apply List.filter_congr
      intro m hm
      have hb := findFrom_mem re t1 _ _ m hm
      rw [hP'len, hAlen] at hb
      have hmd : isModifiedBy (md :: rest) m.line = isModifiedBy rest m.line := by
        simp only [isModifiedBy, List.any_cons]
        have h0 : (decide (md.new_line ≤ m.line)
            && decide (m.line ≤ md.new_line + md.num_added)) = false := by
          simp only [Bool.and_eq_false_iff, decide_eq_false_iff_not, not_le]
          right
          omega
        rw [h0, Bool.false_or]
      rw [hmd]
    rw [hfP, hfA, hfT]
    -- align the remaining offsets and contents
    rw [show nOff + (((new.drop nOff.toNat).take p).length : Int)
          + (((new.drop (nOff.toNat + p)).take (md.num_added.toNat + 1)).length : Int)
        = md.new_line + md.num_added + 1 by rw [hP'len, hAlen]; push_cast; omega]
    rw [show nOff.toNat + p + (md.num_added.toNat + 1)
        = (md.new_line + md.num_added + 1).toNat by omega]
    rw [show oOff + (nOff - oOff) = nOff by ring, hpre]

/-- The rescan loop of one modification, restated as a `findFrom` over
the corresponding slice of the buffer. -/
theorem scan_range_eq (new : List (List Char)) (re : LineMatcher) (ts : Nat) :
    ∀ (n : Nat) (off : Int), 0 ≤ off → off + n ≤ new.length →
      (List.range n).flatMap (fun k =>
        (re (new.getD (off + (k : Int)).toNat [])).map
          fun be => (⟨ts, off + (k : Int), be.1, be.2⟩ : RegexMatch))
      = findFrom re ts off ((new.drop off.toNat).take n) := by
  intro n
  induction n with
  | zero => intro off _ _; simp [findFrom]
  | succ n ih =>
    intro off hoff hbound
    have hlt : off.toNat < new.length := by omega
    have hdropc : new.drop off.toNat = new[off.toNat] :: new.drop (off.toNat + 1) :=
      List.drop_eq_getElem_cons hlt
    have hget : new.getD (off + ((0 : Nat) : Int)).toNat [] = new[off.toNat] := by
      rw [show off + ((0 : Nat) : Int) = off by simp]
      exact List.getD_eq_getElem new [] hlt
    rw [List.range_succ_eq_map, List.flatMap_cons, List.flatMap_map]
    have hfun : (fun k : Nat =>
        (re (new.getD (off + ((Nat.succ k : Nat) : Int)).toNat [])).map
          fun be => (⟨ts, off + ((Nat.succ k : Nat) : Int), be.1, be.2⟩ : RegexMatch))
      = (fun k : Nat =>
        (re (new.getD ((off + 1) + (k : Int)).toNat [])).map
          fun be => (⟨ts, (off + 1) + (k : Int), be.1, be.2⟩ : RegexMatch)) := by
      funext k
      have : off + ((Nat.succ k : Nat) : Int) = (off + 1) + (k : Int) := by
        push_cast
        ring
      rw [this]
    rw [show ((List.range n).flatMap fun a =>
          (re (new.getD (off + ((Nat.succ a : Nat) : Int)).toNat [])).map
            fun be => (⟨ts, off + ((Nat.succ a : Nat) : Int), be.1, be.2⟩ : RegexMatch))
        = (List.range n).flatMap (fun k : Nat =>
          (re (new.getD ((off + 1) + (k : Int)).toNat [])).map
            fun be => (⟨ts, (off + 1) + (k : Int), be.1, be.2⟩ : RegexMatch)) from
      congrArg _ hfun]
    rw [ih (off + 1) (by omega) (by push_cast at hbound ⊢; omega)]
    rw [hdropc, List.take_succ_cons, findFrom, hget]
    rw [show (off + 1).toNat = off.toNat + 1 by omega]
    simp only [Nat.cast_zero, add_zero]

/-- `freshScan` produces exactly the new buffer's matches on modified
lines. -/
theorem freshScan_eq (re : LineMatcher) (t1 : Nat) {old new : List (List Char)} :
    ∀ {todo : List LineModification} {oOff nOff : Int},
      Decomp old new todo oOff nOff →
      freshScan new todo re t1
        = (findFrom re t1 nOff (new.drop nOff.toNat)).filter
            (fun m => isModifiedBy todo m.line) := by
  intro todo oOff nOff hdec
  induction hdec with
  | nil oOff nOff ho hn heq =>
    simp only [freshScan, List.flatMap_nil]
    symm
    apply List.filter_eq_nil.mpr
    intro m _
    simp [isModifiedBy]
  | cons p md rest oOff nOff ho hn hol hnl hr ha hob hnb hpre hrest ih =>
    have hrest_nlb := Decomp.new_line_lb hrest
    have hnN : (nOff.toNat : Int) = nOff := Int.toNat_of_nonneg hn
    have haN : (md.num_added.toNat : Int) = md.num_added := Int.toNat_of_nonneg ha
    have hP'len : ((new.drop nOff.toNat).take p).length = p := by
      rw [List.length_take, List.length_drop]
      omega
    have hAlen : ((new.drop (nOff.toNat + p)).take (md.num_added.toNat + 1)).length
        = md.num_added.toNat + 1 := by
      rw [List.length_take, List.length_drop]
      omega
    -- the scan of the head modification
    have hmin : min (md.new_line + md.num_added + 1) ((new.length : Nat) : Int)
        - md.new_line = md.num_added + 1 := by omega
    have hscan :
        (List.range (min (md.new_line + md.num_added + 1) ((new.length : Nat) : Int)
            - md.new_line).toNat).flatMap (fun k =>
          (re (new.getD (md.new_line + (k : Int)).toNat [])).map
            fun be => (⟨t1, md.new_line + (k : Int), be.1, be.2⟩ : RegexMatch))
        = findFrom re t1 md.new_line
            ((new.drop md.new_line.toNat).take (md.num_added.toNat + 1)) := by
      rw [hmin, show (md.num_added + 1).toNat = md.num_added.toNat + 1 by omega]
      exact scan_range_eq new re t1 (md.num_added.toNat + 1) md.new_line
        (by omega) (by push_cast; omega)
    -- split the right-hand side
    conv_rhs =>
      rw [drop_split new nOff.toNat p, drop_split new (nOff.toNat + p)
        (md.num_added.toNat + 1)]
    rw [findFrom_append, findFrom_append, List.filter_append, List.filter_append]
    have hfP :
        (findFrom re t1 nOff ((new.drop nOff.toNat).take p)).filter
          (fun m => isModifiedBy (md :: rest) m.line) = [] := by
      apply List.filter_eq_nil.mpr
      intro m hm
      have hb := findFrom_mem re t1 _ nOff m hm
      rw [hP'len] at hb
      rw [isModifiedBy_iff]
      rintro ⟨md', hmd', h1, h2⟩
      rcases List.mem_cons.mp hmd' with rfl | hmd'
      · omega
      · have := hrest_nlb md' hmd'
        omega
    have hfA :
        (findFrom re t1 (nOff + (((new.drop nOff.toNat).take p).length : Int))
            ((new.drop (nOff.toNat + p)).take (md.num_added.toNat + 1))).filter
          (fun m => isModifiedBy (md :: rest) m.line)
        = findFrom re t1 (nOff + (((new.drop nOff.toNat).take p).length : Int))
            ((new.drop (nOff.toNat + p)).take (md.num_added.toNat + 1)) := by
      apply List.filter_eq_self.mpr
      intro m hm
      have hb := findFrom_mem re t1 _ _ m hm
      rw [hAlen, hP'len] at hb
      rw [isModifiedBy_iff]
      exact ⟨md, List.mem_cons_self _ _, by omega, by omega⟩
    have hfT :
        (findFrom re t1 (nOff + (((new.drop nOff.toNat).take p).length : Int)
              + (((new.drop (nOff.toNat + p)).take (md.num_added.toNat + 1)).length : Int))
            (new.drop (nOff.toNat + p + (md.num_added.toNat + 1)))).filter
          (fun m => isModifiedBy (md :: rest) m.line)
        = (findFrom re t1 (nOff + (((new.drop nOff.toNat).take p).length : Int)
              + (((new.drop (nOff.toNat + p)).take (md.num_added.toNat + 1)).length : Int))
            (new.drop (nOff.toNat + p + (md.num_added.toNat + 1)))).filter
          (fun m => isModifiedBy rest m.line) := by
      apply List.filter_congr
      intro m hm
      have hb := findFrom_mem re t1 _ _ m hm
      rw [hP'len, hAlen] at hb
      simp only [isModifiedBy, List.any_cons]
      have h0 : (decide (md.new_line ≤ m.line)
          && decide (m.line ≤ md.new_line + md.num_added)) = false := by
        simp only [Bool.and_eq_false_iff, decide_eq_false_iff_not, not_le]
        right
        omega
      rw [h0, Bool.false_or]
    rw [hfP, hfA, hfT, List.nil_append]
    have hoffA : nOff + (((new.drop nOff.toNat).take p).length : Int) = md.new_line := by
      rw [hP'len]
      omega
    have hoffT : nOff + (((new.drop nOff.toNat).take p).length : Int)
        + (((new.drop (nOff.toNat + p)).take (md.num_added.toNat + 1)).length : Int)
        = md.new_line + md.num_added + 1 := by
      rw [hP'len, hAlen]
      push_cast
      omega
    rw [hoffT, hoffA,
      show nOff.toNat + p + (md.num_added.toNat + 1)
        = (md.new_line + md.num_added + 1).toNat by omega]
    show freshScan new (md :: rest) re t1 = _
    simp only [freshScan, List.flatMap_cons]
    rw [← ih]
    congr 1
    rw [show nOff.toNat + p = md.new_line.toNat by omega]
    exact hscan

/-- The stable merge reassembles a strictly sorted list from its two
complementary filters. -/
theorem mergeGo_filter_of_pairwise (p : RegexMatch → Bool) :
    ∀ (L : List RegexMatch) (fuel : Nat), L.length ≤ fuel →
      L.Pairwise matchLt →
      mergeGo fuel (L.filter (fun m => !(p m))) (L.filter p) = L := by
  intro L
  induction L with
  | nil =>
    intro fuel _ _
    cases fuel <;> rfl
  | cons a t ih =>
    intro fuel hfuel hpw
    obtain ⟨n, rfl⟩ : ∃ n, fuel = n + 1 := ⟨fuel - 1, by simp at hfuel; omega⟩
    have hlen : t.length ≤ n := by simp at hfuel; omega
    obtain ⟨ha, ht⟩ := List.pairwise_cons.mp hpw
    by_cases hp : p a = true
    · have hf1 : (a :: t).filter (fun m => !(p m)) = t.filter (fun m => !(p m)) := by
        rw [List.filter_cons_of_neg]
        simp [hp]
      have hf2 : (a :: t).filter p = a :: t.filter p :=
        List.filter_cons_of_pos hp
      rw [hf1, hf2]
      cases hft : t.filter (fun m => !(p m)) with
      | nil =>
        have hall : t.filter p = t := by
          apply List.filter_eq_self.mpr
          intro x hx
          have := List.filter_eq_nil.mp hft x hx
          simpa using this
        show mergeGo (n + 1) [] (a :: t.filter p) = a :: t
        rw [hall]
        rfl
      | cons b bs =>
        have hbmem : b ∈ t := by
          have : b ∈ t.filter (fun m => !(p m)) := by
            rw [hft]
            exact List.mem_cons_self _ _
          exact List.mem_of_mem_filter this
        have hab : a.begin_coord < b.begin_coord := ha b hbmem
        show mergeGo (n + 1) (b :: bs) (a :: t.filter p) = a :: t
        have hcond : a.begin_coord < b.begin_coord := hab
        simp only [mergeGo, if_pos hcond]
        rw [← hft]
        exact congrArg (a :: ·) (ih n hlen ht)
    · have hf1 : (a :: t).filter (fun m => !(p m)) = a :: t.filter (fun m => !(p m)) := by
        apply List.filter_cons_of_pos
        simp [hp]
      have hf2 : (a :: t).filter p = t.filter p := List.filter_cons_of_neg (by simp [hp])
      rw [hf1, hf2]
      cases hft : t.filter p with
      | nil =>
        have hall : t.filter (fun m => !(p m)) = t := by
          apply List.filter_eq_self.mpr
          intro x hx
          have := List.filter_eq_nil.mp hft x hx
          simpa using this
        show mergeGo (n + 1) (a :: t.filter (fun m => !(p m))) [] = a :: t
        rw [hall]
        rfl
      | cons c cs =>
        have hcmem : c ∈ t := by
          have : c ∈ t.filter p := by
            rw [hft]
            exact List.mem_cons_self _ _
          exact List.mem_of_mem_filter this
        have hac : a.begin_coord < c.begin_coord := ha c hcmem
        show mergeGo (n + 1) (a :: t.filter (fun m => !(p m))) (c :: cs) = a :: t
        simp only [mergeGo, if_neg (lt_asymm hac)]
        rw [← hft]
        exact congrArg (a :: ·) (ih n hlen ht)

theorem length_filter_not_add (p : RegexMatch → Bool) (L : List RegexMatch) :
    (L.filter (fun m => !(p m))).length + (L.filter p).length = L.length := by
  induction L with
  | nil => rfl
  | cons a t ih =>
    by_cases hp : p a = true
    · rw [List.filter_cons_of_neg (by simp [hp]), List.filter_cons_of_pos hp]
      simp only [List.length_cons]
      omega
    · rw [List.filter_cons_of_pos (by simp [hp]), List.filter_cons_of_neg (by simp [hp])]
      simp only [List.length_cons]
      omega

/-- C1: for every buffer state `new` reachable from `old` via a valid
line-modification list, running `update_matches` on the matches of a full
scan of `old` at timestamp `t0` yields exactly the match list that a full
rescan (`find_matches`) of `new` at timestamp `t1` produces, in the same
sorted order by `(line, begin)`. -/
theorem update_matches_eq_full_rescan
    (re : LineMatcher) (hre : LineMatcherWf re)
    (old new : List (List Char)) (modifs : List LineModification)
    (t0 t1 : Nat) (hdec : Decomp old new modifs 0 0) :
    update_matches new modifs (find_matches old re t0) re t1
      = find_matches new re t1 := by
  have hd0 : DoneInv [] 0 0 :=
    ⟨by intro d hd; simp at hd, fun _ => rfl, by intro dl hdl; simp at hdl⟩
  have hA := survivors_eq re t0 t1 hdec [] modifs rfl hd0
  have hB := freshScan_eq re t1 hdec
  simp only [Int.toNat_zero, List.drop_zero, List.nil_append] at hA hB
  show mergeMatches ((findFrom re t0 0 old).filterMap
      (survive modifs (new.length : Int) t1)) (freshScan new modifs re t1)
    = findFrom re t1 0 new
  rw [hA, hB, mergeMatches, length_filter_not_add]
  exact mergeGo_filter_of_pairwise _ (findFrom re t1 0 new) _ (le_refl _)
    (findFrom_pairwise re hre t1 new 0)

/-- A tiny line matcher used to instantiate C1's theorem concretely. -/
def reWitness : LineMatcher := fun l => if l = ['m'] then [(0, 1)] else []

theorem reWitness_wf : LineMatcherWf reWitness := by
  intro l
  by_cases h : l = ['m'] <;> simp [reWitness, h]

/-- Witness for C1: one line rewritten and one line inserted in a
three-line buffer. -/
theorem update_matches_eq_full_rescan_witness :
    update_matches [['m'], ['y'], ['y'], ['m']] [⟨1, 1, 0, 1⟩]
      (find_matches [['m'], ['x'], ['m']] reWitness 1) reWitness 2
    = find_matches [['m'], ['y'], ['y'], ['m']] reWitness 2 :=
  update_matches_eq_full_rescan reWitness reWitness_wf
    [['m'], ['x'], ['m']] [['m'], ['y'], ['y'], ['m']] [⟨1, 1, 0, 1⟩] 1 2
    (Decomp.cons 1 ⟨1, 1, 0, 1⟩ [] 0 0 (by decide) (by decide) (by decide)
      (by decide) (by decide) (by decide) (by decide) (by decide) (by decide)
      (Decomp.nil 2 3 (by decide) (by decide) (by decide)))

/-! ## Regions highlighter (highlighters.cc: RegionMatches,
RegionsHighlighter::find_next_begin, update_cache_ifn) -/

instance : Inhabited RegexMatch := ⟨⟨0, 0, 0, 0⟩⟩

/-- `std::lower_bound` over a `RegexMatchList` with
`RegionMatches::compare_to_begin` (highlighters.cc lines 802-805): the
index of the first match whose `begin_coord` is not `< pos`.  On a list
sorted by `begin_coord` this is exactly what `std::lower_bound`
computes; on the sorted lists this embedding is applied to, the two
agree. -/
def lowerBound (ms : List RegexMatch) (pos : ByteCoord) : Nat :=
  (ms.takeWhile (fun m => decide (m.begin_coord < pos))).length

/-- `std::lower_bound` restarted from iterator position `i`, as
`find_matching_end` does with its saved `end_it` / `rec_it`. -/
def lowerBoundFrom (ms : List RegexMatch) (i : Nat) (pos : ByteCoord) : Nat :=
  i + lowerBound (ms.drop i) pos

/-- `RegionMatches` (highlighters.cc lines 796-800). -/
structure RegionMatches where
  begin_matches : List RegexMatch
  end_matches : List RegexMatch
  recurse_matches : List RegexMatch
deriving DecidableEq

instance : Inhabited RegionMatches := ⟨⟨[], [], []⟩⟩

/-- `RegionMatches::find_next_begin` (highlighters.cc lines 807-811),
returning an index into `begin_matches` (`length` plays the role of the
end iterator). -/
def RegionMatches.find_next_begin (rm : RegionMatches) (pos : ByteCoord) : Nat :=
  lowerBound rm.begin_matches pos

/-- The inner `while` loop of `find_matching_end` (highlighters.cc lines
828-833): how many recurse matches starting at index `ri` have their
`end_coord` before `limit` (the candidate end's `begin_coord`).  Each
one increments `recurse_level` and advances `rec_it`. -/
def countRecurse (recs : List RegexMatch) (ri : Nat) (limit : ByteCoord) : Nat :=
  ((recs.drop ri).takeWhile (fun m => decide (m.end_coord < limit))).length

/-- The `while (true)` loop of `RegionMatches::find_matching_end`
(highlighters.cc lines 813-841), instrumented: besides the resulting
end-match index it returns the total number of recurse matches counted
(`++recurse_level` executions) and the total number of candidate end
matches consumed (loop passes that did not return, each ending in
`--recurse_level; beg_pos = end_it->end_coord()`).  `ei`, `ri` and
`level` are the loop state `end_it`, `rec_it` and `recurse_level`;
`fuel` bounds the number of passes, which the C++ loop does not. -/
def find_matching_end_aux (ends recs : List RegexMatch) :
    Nat → Nat → Nat → Nat → ByteCoord → Option (Nat × Nat × Nat)
  | 0, _, _, _, _ => none
  | fuel + 1, ei, ri, level, beg_pos =>
    let ei' := lowerBoundFrom ends ei beg_pos
    let ri' := lowerBoundFrom recs ri beg_pos
    if ends.length ≤ ei' then some (ei', 0, 0)
    else
      let e := ends.getD ei' default
      let k := countRecurse recs ri' e.begin_coord
      if level + k = 0 then some (ei', k, 0)
      else
        match find_matching_end_aux ends recs fuel ei' (ri' + k)
            (level + k - 1) e.end_coord with
        | none => none
        | some r => some (r.1, k + r.2.1, r.2.2 + 1)

/-- `RegionMatches::find_matching_end`, as the end-match index (with
`end_matches.length` for the end iterator).  One pass more than the
total number of matches is always enough fuel (`find_matching_end_aux_some`
below), so the `none` fallback is never taken. -/
def RegionMatches.find_matching_end (rm : RegionMatches) (beg_pos : ByteCoord) : Nat :=
  match find_matching_end_aux rm.end_matches rm.recurse_matches
      (rm.end_matches.length + rm.recurse_matches.length + 1) 0 0 0 beg_pos with
  | some r => r.1
  | none => rm.end_matches.length

/-- A resolved region, `RegionsHighlighter::Region` (highlighters.cc
lines 936-941). -/
structure Region where
  begin : ByteCoord
  end_ : ByteCoord
  group : List Char
deriving DecidableEq

/-- `RegionsHighlighter::find_next_begin` (highlighters.cc lines
955-968): among all regions, the (region index, begin-match index) of
the begin match closest to `pos`. -/
def find_next_begin_vec (vec : List RegionMatches) (pos : ByteCoord) : Nat × Nat :=
  (List.range (vec.length - 1)).foldl
    (fun res j =>
      let i := j + 1
      let rm := vec.getD i default
      let it := rm.find_next_begin pos
      if it < rm.begin_matches.length ∧
          (res.2 = (vec.getD res.1 default).begin_matches.length ∨
           (rm.begin_matches.getD it default).begin_coord
             < ((vec.getD res.1 default).begin_matches.getD res.2 default).begin_coord)
      then (i, it) else res)
    (0, (vec.getD 0 default).find_next_begin pos)

/-- `Buffer::end_coord()`: one past the last character,
`{line_count-1, last line length}` (buffer.hh is not in src; modelled
from the spec and its use at highlighters.cc line 1004). -/
def buffer_end_coord (buffer : List (List Char)) : ByteCoord :=
  ⟨(buffer.length : Int) - 1, ((buffer.getLast?.getD []).length : Int)⟩

/-- The region-resolution `for` loop of `update_cache_ifn`
(highlighters.cc lines 992-1026), with `cache.regions` as the `acc`
accumulator and `names` for `m_regions[i].first`.  The loop ends when
`find_next_begin` returns the end of region 0's begin matches; when the
matching end's `end_coord` equals the begin's `begin_coord` (empty begin
and end matches) the search position's column is bumped by one.  `fuel`
bounds the number of iterations, which the C++ loop does not. -/
def regions_loop (vec : List RegionMatches) (names : List (List Char))
    (bufEnd : ByteCoord) : Nat → ByteCoord → List Region → Option (List Region)
  | 0, _, _ => none
  | fuel + 1, pos, acc =>
    let b := find_next_begin_vec vec pos
    if b.1 = 0 ∧ b.2 = (vec.getD 0 default).begin_matches.length then
      some acc.reverse
    else
      let rm := vec.getD b.1 default
      let beg := rm.begin_matches.getD b.2 default
      let ei := rm.find_matching_end beg.end_coord
      if ei = rm.end_matches.length then
        some (((⟨beg.begin_coord, bufEnd, names.getD b.1 []⟩ : Region) :: acc).reverse)
      else
        let e := rm.end_matches.getD ei default
        let pos' := if e.end_coord = beg.begin_coord
          then ⟨e.end_coord.line, e.end_coord.column + 1⟩ else e.end_coord
        regions_loop vec names bufEnd fuel pos'
          (⟨beg.begin_coord, e.end_coord, names.getD b.1 []⟩ :: acc)

/-- Total number of begin matches over all regions. -/
def totalBegins (vec : List RegionMatches) : Nat :=
  (vec.map (fun rm => rm.begin_matches.length)).sum

/-- The region-resolution part of `update_cache_ifn` (highlighters.cc
lines 990-1026): run the loop from `ByteCoord{-1, 0}` with an empty
region list; one iteration more than the total number of begin matches
as fuel. -/
def update_cache_regions (vec : List RegionMatches) (names : List (List Char))
    (bufEnd : ByteCoord) : Option (List Region) :=
  regions_loop vec names bufEnd (totalBegins vec + 1) ⟨-1, 0⟩ []

/-! ### takeWhile index lemmas -/

/-- Every index below the length of `takeWhile` satisfies the predicate. -/
theorem takeWhile_sat {α : Type} [Inhabited α] (p : α → Bool) :
    ∀ (l : List α) (j : Nat), j < (l.takeWhile p).length →
      p (l.getD j default) = true := by
  intro l
  induction l with
  | nil => intro j hj; simp [List.takeWhile] at hj
  | cons a t ih =>
    intro j hj
    rw [List.takeWhile_cons] at hj
    by_cases hpa : p a = true
    · rw [if_pos hpa] at hj
      cases j with
      | zero => simpa using hpa
      | succ j =>
        rw [List.getD_cons_succ]
        exact ih j (by simpa using hj)
    · rw [if_neg hpa] at hj
      simp at hj

/-- The element right after the `takeWhile` prefix fails the predicate. -/
theorem takeWhile_boundary {α : Type} [Inhabited α] (p : α → Bool) :
    ∀ (l : List α), (l.takeWhile p).length < l.length →
      p (l.getD (l.takeWhile p).length default) = false := by
  intro l
  induction l with
  | nil => intro h; simp at h
  | cons a t ih =>
    intro h
    rw [List.takeWhile_cons] at h ⊢
    by_cases hpa : p a = true
    · rw [if_pos hpa] at h ⊢
      simp only [List.length_cons] at h
      have := ih (by omega)
      simpa using this
    · rw [if_neg hpa] at h ⊢
      simpa using eq_false_of_ne_true hpa

/-- If the first `k` elements satisfy the predicate, `takeWhile` keeps at
least `k` elements. -/
theorem le_length_takeWhile {α : Type} [Inhabited α] (p : α → Bool) :
    ∀ (l : List α) (k : Nat), k ≤ l.length →
      (∀ j, j < k → p (l.getD j default) = true) →
      k ≤ (l.takeWhile p).length := by
  intro l
  induction l with
  | nil => intro k hk _; simpa using hk
  | cons a t ih =>
    intro k hk h
    cases k with
    | zero => exact Nat.zero_le _
    | succ k =>
      have hpa : p a = true := by simpa using h 0 (Nat.succ_pos k)
      rw [List.takeWhile_cons, if_pos hpa]
      simp only [List.length_cons]
      have := ih k (by simpa using hk)
        (fun j hj => by simpa using h (j + 1) (Nat.succ_lt_succ hj))
      omega

/-- `getD` through `drop`. -/
theorem getD_drop {α : Type} [Inhabited α] (l : List α) (i j : Nat) :
    (l.drop i).getD j default = l.getD (i + j) default := by
  by_cases h : i + j < l.length
  · have h' : j < (l.drop i).length := by rw [List.length_drop]; omega
    rw [List.getD_eq_getElem _ _ h', List.getD_eq_getElem _ _ h]
    exact List.getElem_drop l
  · rw [List.getD_eq_default, List.getD_eq_default]
    · omega
    · rw [List.length_drop]; omega

/-- `getD` of an in-range index is a member. -/
theorem getD_mem {α : Type} [Inhabited α] (l : List α) (i : Nat)
    (h : i < l.length) : l.getD i default ∈ l := by
  rw [List.getD_eq_getElem _ _ h]
  exact List.getElem_mem h

/-! ### lower_bound facts -/

theorem lowerBound_le (ms : List RegexMatch) (pos : ByteCoord) :
    lowerBound ms pos ≤ ms.length :=
  (List.takeWhile_sublist _).length_le

/-- Matches strictly before the `lower_bound` index have `begin_coord < pos`. -/
theorem lowerBound_lt_pos (ms : List RegexMatch) (pos : ByteCoord) (j : Nat)
    (hj : j < lowerBound ms pos) : (ms.getD j default).begin_coord < pos := by
  unfold lowerBound at hj
  have := takeWhile_sat (fun m => decide (m.begin_coord < pos)) ms j hj
  simpa using this

/-- The match at the `lower_bound` index (if in range) has `pos ≤ begin_coord`. -/
theorem lowerBound_ge_pos (ms : List RegexMatch) (pos : ByteCoord)
    (h : lowerBound ms pos < ms.length) :
    pos ≤ (ms.getD (lowerBound ms pos) default).begin_coord := by
  unfold lowerBound at h ⊢
  have := takeWhile_boundary (fun m => decide (m.begin_coord < pos)) ms h
  simp only [decide_eq_false_iff_not] at this
  exact not_lt.mp this

/-- If the first `k` matches are before `pos`, the `lower_bound` is at least
`k`. -/
theorem le_lowerBound (ms : List RegexMatch) (pos : ByteCoord) (k : Nat)
    (hk : k ≤ ms.length)
    (h : ∀ j, j < k → (ms.getD j default).begin_coord < pos) :
    k ≤ lowerBound ms pos :=
  le_length_takeWhile _ ms k hk (fun j hj => by simpa using h j hj)

/-- `lower_bound` is monotone in the searched position (no sortedness
needed for this direction). -/
theorem lowerBound_mono (ms : List RegexMatch) {pos pos' : ByteCoord}
    (h : pos ≤ pos') : lowerBound ms pos ≤ lowerBound ms pos' :=
  le_lowerBound ms pos' _ (lowerBound_le ms pos)
    (fun j hj => lt_of_lt_of_le (lowerBound_lt_pos ms pos j hj) h)

theorem lowerBoundFrom_ge (ms : List RegexMatch) (i : Nat) (pos : ByteCoord) :
    i ≤ lowerBoundFrom ms i pos :=
  Nat.le_add_right i _

theorem lowerBoundFrom_le (ms : List RegexMatch) (i : Nat) (pos : ByteCoord)
    (hi : i ≤ ms.length) : lowerBoundFrom ms i pos ≤ ms.length := by
  have h : (List.takeWhile (fun m => decide (m.begin_coord < pos))
      (ms.drop i)).length ≤ (ms.drop i).length :=
    (List.takeWhile_sublist _).length_le
  rw [List.length_drop] at h
  unfold lowerBoundFrom lowerBound
  omega

/-- The match at an in-range `lowerBoundFrom` index has `pos ≤ begin_coord`. -/
theorem lowerBoundFrom_ge_pos (ms : List RegexMatch) (i : Nat) (pos : ByteCoord)
    (h : lowerBoundFrom ms i pos < ms.length) :
    pos ≤ (ms.getD (lowerBoundFrom ms i pos) default).begin_coord := by
  have hb : lowerBound (ms.drop i) pos < (ms.drop i).length := by
    have hge := lowerBoundFrom_ge ms i pos
    rw [List.length_drop]
    unfold lowerBoundFrom at h
    omega
  have := lowerBound_ge_pos (ms.drop i) pos hb
  rw [getD_drop] at this
  exact this

theorem countRecurse_le (recs : List RegexMatch) (ri : Nat) (limit : ByteCoord) :
    countRecurse recs ri limit ≤ recs.length - ri := by
  have h : (List.takeWhile (fun m => decide (m.end_coord < limit))
      (recs.drop ri)).length ≤ (recs.drop ri).length :=
    (List.takeWhile_sublist _).length_le
  rw [List.length_drop] at h
  exact h

/-! ### find_matching_end: termination and the recurse/end balance -/

/-- With fuel exceeding the sum of remaining end matches, remaining recurse
matches and the current recursion level, `find_matching_end_aux` completes:
each loop pass either returns or strictly shrinks that sum. -/
theorem find_matching_end_aux_some (ends recs : List RegexMatch) :
    ∀ (fuel ei ri level : Nat) (pos : ByteCoord),
      ei ≤ ends.length → ri ≤ recs.length →
      (ends.length - ei) + (recs.length - ri) + level < fuel →
      find_matching_end_aux ends recs fuel ei ri level pos ≠ none := by
  intro fuel
  induction fuel with
  | zero => intro ei ri level pos _ _ h; omega
  | succ fuel ih =>
    intro ei ri level pos hei hri hm
    simp only [find_matching_end_aux]
    split
    · simp
    · rename_i h1
      split
      · simp
      · rename_i h2
        have hei' : lowerBoundFrom ends ei pos < ends.length := by omega
        have hri' : ri ≤ lowerBoundFrom recs ri pos := lowerBoundFrom_ge recs ri pos
        have hril : lowerBoundFrom recs ri pos ≤ recs.length :=
          lowerBoundFrom_le recs ri pos hri
        have hk := countRecurse_le recs (lowerBoundFrom recs ri pos)
          (ends.getD (lowerBoundFrom ends ei pos) default).begin_coord
        have heig : ei ≤ lowerBoundFrom ends ei pos := lowerBoundFrom_ge ends ei pos
        have hrec := ih (lowerBoundFrom ends ei pos)
          (lowerBoundFrom recs ri pos +
            countRecurse recs (lowerBoundFrom recs ri pos)
              (ends.getD (lowerBoundFrom ends ei pos) default).begin_coord)
          (level +
            countRecurse recs (lowerBoundFrom recs ri pos)
              (ends.getD (lowerBoundFrom ends ei pos) default).begin_coord - 1)
          (ends.getD (lowerBoundFrom ends ei pos) default).end_coord
          (by omega) (by omega) (by omega)
        cases hcall : find_matching_end_aux ends recs fuel
            (lowerBoundFrom ends ei pos)
            (lowerBoundFrom recs ri pos +
              countRecurse recs (lowerBoundFrom recs ri pos)
                (ends.getD (lowerBoundFrom ends ei pos) default).begin_coord)
            (level +
              countRecurse recs (lowerBoundFrom recs ri pos)
                (ends.getD (lowerBoundFrom ends ei pos) default).begin_coord - 1)
            (ends.getD (lowerBoundFrom ends ei pos) default).end_coord with
        | none => exact absurd hcall hrec
        | some r => simp [hcall]

/-- The index returned by `find_matching_end_aux` never exceeds the length
of the end-match list (when started within bounds). -/
theorem find_matching_end_aux_le (ends recs : List RegexMatch) :
    ∀ (fuel ei ri level : Nat) (pos : ByteCoord) (r : Nat × Nat × Nat),
      ei ≤ ends.length →
      find_matching_end_aux ends recs fuel ei ri level pos = some r →
      r.1 ≤ ends.length := by
  intro fuel
  induction fuel with
  | zero => intro ei ri level pos r _ h; simp [find_matching_end_aux] at h
  | succ fuel ih =>
    intro ei ri level pos r hei h
    simp only [find_matching_end_aux] at h
    split at h
    · cases h
      exact lowerBoundFrom_le ends ei pos hei
    · rename_i h1
      split at h
      · cases h
        omega
      · split at h
        · cases h
        · rename_i r' hcall
          cases h
          exact ih _ _ _ _ r' (by omega) hcall

/-- The recurse/end balance invariant of `find_matching_end_aux`: if the
loop returns an end match (not the end iterator), the recursion level it
entered with plus the recurse matches it counted equals the end matches it
consumed. -/
theorem find_matching_end_aux_counts (ends recs : List RegexMatch) :
    ∀ (fuel ei ri level : Nat) (pos : ByteCoord) (r : Nat × Nat × Nat),
      find_matching_end_aux ends recs fuel ei ri level pos = some r →
      r.1 < ends.length →
      level + r.2.1 = r.2.2 := by
  intro fuel
  induction fuel with
  | zero => intro ei ri level pos r h; simp [find_matching_end_aux] at h
  | succ fuel ih =>
    intro ei ri level pos r h hr
    simp only [find_matching_end_aux] at h
    split at h
    · rename_i h1
      cases h
      simp only at hr
      omega
    · rename_i h1
      split at h
      · rename_i h2
        cases h
        simp only at hr ⊢
        omega
      · rename_i h2
        split at h
        · cases h
        · rename_i r' hcall
          cases h
          have := ih _ _ _ _ r' hcall (by simpa using hr)
          simp only
          omega

/-- When `find_matching_end_aux` finds an end match, its `begin_coord` is
at least the searched position (using that every end match satisfies
`begin_coord ≤ end_coord`). -/
theorem find_matching_end_aux_pos (ends recs : List RegexMatch)
    (hwf : ∀ m ∈ ends, m.begin_coord ≤ m.end_coord) :
    ∀ (fuel ei ri level : Nat) (pos : ByteCoord) (r : Nat × Nat × Nat),
      find_matching_end_aux ends recs fuel ei ri level pos = some r →
      r.1 < ends.length →
      pos ≤ (ends.getD r.1 default).begin_coord := by
  intro fuel
  induction fuel with
  | zero => intro ei ri level pos r h; simp [find_matching_end_aux] at h
  | succ fuel ih =>
    intro ei ri level pos r h hr
    simp only [find_matching_end_aux] at h
    split at h
    · rename_i h1
      cases h
      simp only at hr
      omega
    · rename_i h1
      split at h
      · rename_i h2
        cases h
        simp only at hr ⊢
        exact lowerBoundFrom_ge_pos ends ei pos (by omega)
      · rename_i h2
        split at h
        · cases h
        · rename_i r' hcall
          cases h
          have hstep := ih _ _ _ _ r' hcall (by simpa using hr)
          have hb : pos ≤ (ends.getD (lowerBoundFrom ends ei pos) default).begin_coord :=
            lowerBoundFrom_ge_pos ends ei pos (by omega)
          have hbe : (ends.getD (lowerBoundFrom ends ei pos) default).begin_coord
              ≤ (ends.getD (lowerBoundFrom ends ei pos) default).end_coord :=
            hwf _ (getD_mem ends (lowerBoundFrom ends ei pos) (by omega))
          simp only
          exact le_trans hb (le_trans hbe hstep)

/-- The wrapper never points past the end-match list. -/
theorem find_matching_end_le (rm : RegionMatches) (b : ByteCoord) :
    RegionMatches.find_matching_end rm b ≤ rm.end_matches.length := by
  unfold RegionMatches.find_matching_end
  cases hcall : find_matching_end_aux rm.end_matches rm.recurse_matches
      (rm.end_matches.length + rm.recurse_matches.length + 1) 0 0 0 b with
  | none => exact le_refl _
  | some r =>
    exact find_matching_end_aux_le rm.end_matches rm.recurse_matches _ 0 0 0 b r
      (Nat.zero_le _) hcall

/-- When the wrapper finds an end match, the searched position is at most
that match's `begin_coord`. -/
theorem find_matching_end_ge_pos (rm : RegionMatches) (b : ByteCoord)
    (hwf : ∀ m ∈ rm.end_matches, m.begin_coord ≤ m.end_coord)
    (h : RegionMatches.find_matching_end rm b < rm.end_matches.length) :
    b ≤ (rm.end_matches.getD (RegionMatches.find_matching_end rm b) default).begin_coord := by
  unfold RegionMatches.find_matching_end at h ⊢
  cases hcall : find_matching_end_aux rm.end_matches rm.recurse_matches
      (rm.end_matches.length + rm.recurse_matches.length + 1) 0 0 0 b with
  | none => rw [hcall] at h; simp at h
  | some r =>
    rw [hcall] at h
    dsimp only at h ⊢
    exact find_matching_end_aux_pos rm.end_matches rm.recurse_matches hwf _ 0 0 0 b r hcall h

/-- A `RegexMatchList` sorted by `(line, begin)`, i.e. by `begin_coord`
(as `find_matches` produces and `update_matches` maintains). -/
def sortedByBegin (ms : List RegexMatch) : Prop :=
  List.Pairwise (fun a b => a.begin_coord ≤ b.begin_coord) ms

instance (ms : List RegexMatch) : Decidable (sortedByBegin ms) := by
  unfold sortedByBegin; infer_instance

/-- C5: for a `RegionMatches` whose begin, end and recurse lists are sorted
by `(line, begin)` and a start coordinate `b`, if `find_matching_end b`
returns an end match `e` (not the end of the list), the total number of
recurse matches it counted (each one incrementing `recurse_level`) equals
the total number of intermediate end matches it consumed (each one
decrementing `recurse_level` and moving `beg_pos` past the candidate end);
`find_matching_end_aux` is the loop of `RegionMatches::find_matching_end`
instrumented with exactly these two counters. -/
theorem find_matching_end_recurse_balance (rm : RegionMatches) (b : ByteCoord)
    (hsb : sortedByBegin rm.begin_matches) (hse : sortedByBegin rm.end_matches)
    (hsr : sortedByBegin rm.recurse_matches) (r : Nat × Nat × Nat)
    (hr : find_matching_end_aux rm.end_matches rm.recurse_matches
        (rm.end_matches.length + rm.recurse_matches.length + 1) 0 0 0 b = some r)
    (hlt : r.1 < rm.end_matches.length) :
    RegionMatches.find_matching_end rm b = r.1 ∧ r.2.1 = r.2.2 := by
  constructor
  · unfold RegionMatches.find_matching_end
    rw [hr]
  · have := find_matching_end_aux_counts rm.end_matches rm.recurse_matches
      (rm.end_matches.length + rm.recurse_matches.length + 1) 0 0 0 b r hr hlt
    omega

/-- Witness for C5: one recurse match inside the region forces the first
candidate end to be consumed; the second end match is returned, with one
recurse counted and one end consumed. -/
theorem find_matching_end_recurse_balance_witness :
    RegionMatches.find_matching_end
      ⟨[], [⟨1, 0, 3, 4⟩, ⟨1, 0, 5, 6⟩], [⟨1, 0, 1, 2⟩]⟩ ⟨0, 0⟩ = 1 ∧
    (1 : Nat) = 1 :=
  find_matching_end_recurse_balance
    ⟨[], [⟨1, 0, 3, 4⟩, ⟨1, 0, 5, 6⟩], [⟨1, 0, 1, 2⟩]⟩ ⟨0, 0⟩
    (by decide) (by decide) (by decide) (1, 1, 1) (by decide) (by decide)

/-! ### Region resolution terminates -/

/-- `foldl` preserves an invariant (step may use membership of the list
element). -/
theorem foldl_preserve_mem {α β : Type} (f : β → α → β) (P : β → Prop) :
    ∀ (l : List α) (b : β), P b → (∀ b a, a ∈ l → P b → P (f b a)) →
      P (l.foldl f b)
  | [], _, hb, _ => hb
  | a :: t, b, hb, hstep =>
    foldl_preserve_mem f P t (f b a) (hstep b a (List.mem_cons_self a t) hb)
      (fun b' a' ha' hb' => hstep b' a' (List.mem_cons_of_mem a ha') hb')

/-- The result of `RegionsHighlighter::find_next_begin`: a region index in
range whose match index is that region's `lower_bound` for `pos`, and which
(except when it stayed at region 0) points at an actual begin match. -/
theorem find_next_begin_vec_spec (vec : List RegionMatches) (pos : ByteCoord)
    (hne : 0 < vec.length) :
    (find_next_begin_vec vec pos).1 < vec.length ∧
    (find_next_begin_vec vec pos).2
      = lowerBound (vec.getD (find_next_begin_vec vec pos).1 default).begin_matches pos ∧
    ((find_next_begin_vec vec pos).1 = 0 ∨
     (find_next_begin_vec vec pos).2
       < (vec.getD (find_next_begin_vec vec pos).1 default).begin_matches.length) := by
  unfold find_next_begin_vec
  apply foldl_preserve_mem
    (P := fun res : Nat × Nat =>
      res.1 < vec.length ∧
      res.2 = lowerBound (vec.getD res.1 default).begin_matches pos ∧
      (res.1 = 0 ∨ res.2 < (vec.getD res.1 default).begin_matches.length))
  · exact ⟨hne, rfl, Or.inl rfl⟩
  · intro b a ha hb
    dsimp only
    split
    · rename_i hcond
      refine ⟨?_, rfl, Or.inr hcond.1⟩
      have := List.mem_range.mp ha
      omega
    · exact hb

/-- The termination measure for the region-resolution loop: the number of
begin matches not yet strictly behind the search position, summed over all
regions. -/
def regionsMeasure (vec : List RegionMatches) (pos : ByteCoord) : Nat :=
  (vec.map (fun rm => rm.begin_matches.length - lowerBound rm.begin_matches pos)).sum

theorem regionsMeasure_le (vec : List RegionMatches) (pos : ByteCoord) :
    regionsMeasure vec pos ≤ totalBegins vec := by
  unfold regionsMeasure totalBegins
  exact List.sum_le_sum (fun rm _ => Nat.sub_le _ _)

/-- Advancing the search position strictly past the winning begin match
strictly decreases the measure. -/
theorem regionsMeasure_decrease (vec : List RegionMatches) (pos pos' : ByteCoord)
    (hpos : pos ≤ pos') (ri bi : Nat) (hri : ri < vec.length)
    (hbi : bi = lowerBound (vec.getD ri default).begin_matches pos)
    (hlt : bi < (vec.getD ri default).begin_matches.length)
    (hstrict : ((vec.getD ri default).begin_matches.getD bi default).begin_coord < pos') :
    regionsMeasure vec pos' < regionsMeasure vec pos := by
  subst hbi
  unfold regionsMeasure
  apply List.sum_lt_sum
  · intro rm _
    have := lowerBound_mono rm.begin_matches hpos
    omega
  · refine ⟨vec.getD ri default, getD_mem vec ri hri, ?_⟩
    have h1 : lowerBound (vec.getD ri default).begin_matches pos + 1
        ≤ lowerBound (vec.getD ri default).begin_matches pos' := by
      apply le_lowerBound _ _ _ (by omega)
      intro j hj
      rcases Nat.lt_or_ge j (lowerBound (vec.getD ri default).begin_matches pos)
        with hjb | hjb
      · exact lt_of_lt_of_le (lowerBound_lt_pos _ pos j hjb) hpos
      · have hje : j = lowerBound (vec.getD ri default).begin_matches pos := by omega
        subst hje
        exact hstrict
    have h2 : lowerBound (vec.getD ri default).begin_matches pos'
        ≤ (vec.getD ri default).begin_matches.length := lowerBound_le _ _
    omega

/-- With enough fuel (more than the measure), the region-resolution loop
returns a region list: every iteration either finishes or strictly
decreases the measure, because the next search position is strictly past
the winning begin match's `begin_coord` — in the empty-match case thanks
to the one-column bump. -/
theorem regions_loop_some (vec : List RegionMatches) (names : List (List Char))
    (bufEnd : ByteCoord) (hne : 0 < vec.length)
    (hwfb : ∀ rm ∈ vec, ∀ m ∈ rm.begin_matches, m.begin_coord ≤ m.end_coord)
    (hwfe : ∀ rm ∈ vec, ∀ m ∈ rm.end_matches, m.begin_coord ≤ m.end_coord) :
    ∀ (fuel : Nat) (pos : ByteCoord) (acc : List Region),
      regionsMeasure vec pos < fuel →
      regions_loop vec names bufEnd fuel pos acc ≠ none := by
  intro fuel
  induction fuel with
  | zero => intro pos acc h; omega
  | succ fuel ih =>
    intro pos acc hm
    simp only [regions_loop]
    split
    · simp
    · rename_i hterm
      split
      · simp
      · rename_i hend
        obtain ⟨hb1, hb2, hb3⟩ := find_next_begin_vec_spec vec pos hne
        have hrmmem : vec.getD (find_next_begin_vec vec pos).1 default ∈ vec :=
          getD_mem vec _ hb1
        have hbl : (find_next_begin_vec vec pos).2
            < (vec.getD (find_next_begin_vec vec pos).1 default).begin_matches.length := by
          rcases hb3 with h0 | h
          · rcases Nat.lt_or_ge (find_next_begin_vec vec pos).2
                (vec.getD (find_next_begin_vec vec pos).1 default).begin_matches.length
              with hlt | hge
            · exact hlt
            · exfalso
              apply hterm
              refine ⟨h0, ?_⟩
              rw [h0] at hb2 hge
              have := lowerBound_le (vec.getD 0 default).begin_matches pos
              omega
          · exact h
        have hbegmem :
            (vec.getD (find_next_begin_vec vec pos).1 default).begin_matches.getD
                (find_next_begin_vec vec pos).2 default
              ∈ (vec.getD (find_next_begin_vec vec pos).1 default).begin_matches :=
          getD_mem _ _ hbl
        have hposbeg : pos ≤
            ((vec.getD (find_next_begin_vec vec pos).1 default).begin_matches.getD
              (find_next_begin_vec vec pos).2 default).begin_coord := by
          rw [hb2]
          exact lowerBound_ge_pos _ pos (hb2 ▸ hbl)
        have heil : RegionMatches.find_matching_end
              (vec.getD (find_next_begin_vec vec pos).1 default)
              ((vec.getD (find_next_begin_vec vec pos).1 default).begin_matches.getD
                (find_next_begin_vec vec pos).2 default).end_coord
            < (vec.getD (find_next_begin_vec vec pos).1 default).end_matches.length :=
          lt_of_le_of_ne (find_matching_end_le _ _) hend
        have hbe := find_matching_end_ge_pos
          (vec.getD (find_next_begin_vec vec pos).1 default)
          ((vec.getD (find_next_begin_vec vec pos).1 default).begin_matches.getD
            (find_next_begin_vec vec pos).2 default).end_coord
          (hwfe _ hrmmem) heil
        have heemem :
            (vec.getD (find_next_begin_vec vec pos).1 default).end_matches.getD
                (RegionMatches.find_matching_end
                  (vec.getD (find_next_begin_vec vec pos).1 default)
                  ((vec.getD (find_next_begin_vec vec pos).1 default).begin_matches.getD
                    (find_next_begin_vec vec pos).2 default).end_coord) default
              ∈ (vec.getD (find_next_begin_vec vec pos).1 default).end_matches :=
          getD_mem _ _ heil
        have hee := hwfe _ hrmmem _ heemem
        have hbb := hwfb _ hrmmem _ hbegmem
        apply ih
        have hstrict :
            ((vec.getD (find_next_begin_vec vec pos).1 default).begin_matches.getD
                (find_next_begin_vec vec pos).2 default).begin_coord
              < (if ((vec.getD (find_next_begin_vec vec pos).1 default).end_matches.getD
                      (RegionMatches.find_matching_end
                        (vec.getD (find_next_begin_vec vec pos).1 default)
                        ((vec.getD (find_next_begin_vec vec pos).1 default).begin_matches.getD
                          (find_next_begin_vec vec pos).2 default).end_coord) default).end_coord
                    = ((vec.getD (find_next_begin_vec vec pos).1 default).begin_matches.getD
                        (find_next_begin_vec vec pos).2 default).begin_coord
                 then (⟨((vec.getD (find_next_begin_vec vec pos).1 default).end_matches.getD
                          (RegionMatches.find_matching_end
                            (vec.getD (find_next_begin_vec vec pos).1 default)
                            ((vec.getD (find_next_begin_vec vec pos).1 default).begin_matches.getD
                              (find_next_begin_vec vec pos).2 default).end_coord) default).end_coord.line,
                        ((vec.getD (find_next_begin_vec vec pos).1 default).end_matches.getD
                          (RegionMatches.find_matching_end
                            (vec.getD (find_next_begin_vec vec pos).1 default)
                            ((vec.getD (find_next_begin_vec vec pos).1 default).begin_matches.getD
                              (find_next_begin_vec vec pos).2 default).end_coord) default).end_coord.column + 1⟩ : ByteCoord)
                 else ((vec.getD (find_next_begin_vec vec pos).1 default).end_matches.getD
                        (RegionMatches.find_matching_end
                          (vec.getD (find_next_begin_vec vec pos).1 default)
                          ((vec.getD (find_next_begin_vec vec pos).1 default).begin_matches.getD
                            (find_next_begin_vec vec pos).2 default).end_coord) default).end_coord) := by
          split
          · rename_i hcase
            rw [← hcase, ByteCoord.lt_def]
            exact Or.inr ⟨rfl, lt_add_one _⟩
          · rename_i hcase
            have hle : ((vec.getD (find_next_begin_vec vec pos).1 default).begin_matches.getD
                  (find_next_begin_vec vec pos).2 default).begin_coord
                ≤ ((vec.getD (find_next_begin_vec vec pos).1 default).end_matches.getD
                    (RegionMatches.find_matching_end
                      (vec.getD (find_next_begin_vec vec pos).1 default)
                      ((vec.getD (find_next_begin_vec vec pos).1 default).begin_matches.getD
                        (find_next_begin_vec vec pos).2 default).end_coord) default).end_coord :=
              le_trans hbb (le_trans hbe hee)
            exact lt_of_le_of_ne hle (fun h => hcase h.symm)
        have hdec := regionsMeasure_decrease vec pos _
          (le_trans hposbeg (le_of_lt hstrict))
          (find_next_begin_vec vec pos).1 (find_next_begin_vec vec pos).2
          hb1 hb2 hbl hstrict
        have hmle : regionsMeasure vec pos ≤ fuel := by omega
        exact lt_of_lt_of_le hdec hmle

/-- C4: for every set of region matches in which each begin and end match
covers a forward range (`begin_coord ≤ end_coord`, as any regex match
does), the region-resolution loop of `update_cache_ifn` terminates — one
iteration more than the total number of begin matches always completes.
The search position strictly increases on every iteration: past the
matching end's `end_coord`, and when that equals the winning begin match's
`begin_coord` (empty begin and end matches, e.g. `\K` or lookahead
patterns) the position is bumped by one column before searching the next
begin. -/
theorem regions_resolution_terminates (vec : List RegionMatches)
    (names : List (List Char)) (bufEnd : ByteCoord) (hne : 0 < vec.length)
    (hwfb : ∀ rm ∈ vec, ∀ m ∈ rm.begin_matches, m.begin_coord ≤ m.end_coord)
    (hwfe : ∀ rm ∈ vec, ∀ m ∈ rm.end_matches, m.begin_coord ≤ m.end_coord) :
    update_cache_regions vec names bufEnd ≠ none := by
  apply regions_loop_some vec names bufEnd hne hwfb hwfe
  have := regionsMeasure_le vec ⟨-1, 0⟩
  omega

/-- Witness for C4: a region whose begin and end regexes both produce the
same empty match (the `\K` / lookahead situation); resolution bumps the
position one column past it and terminates with a single region. -/
theorem regions_resolution_terminates_witness :
    update_cache_regions [⟨[⟨1, 0, 1, 1⟩], [⟨1, 0, 1, 1⟩], []⟩] [['r']] ⟨0, 3⟩
      ≠ none :=
  regions_resolution_terminates [⟨[⟨1, 0, 1, 1⟩], [⟨1, 0, 1, 1⟩], []⟩] [['r']]
    ⟨0, 3⟩ (by decide) (by decide) (by decide)

/-! ## Regions factory (highlighters.cc: regions_factory and the
RegionsHighlighter constructor checks) -/

def isError {ε α : Type} : Except ε α → Bool
  | .error _ => true
  | .ok _ => false

/-- The per-region positional parameters: groups of four
(group id, begin pattern, end pattern, recurse pattern), read as
`parser[i] .. parser[i+3]` for `i = 1, 5, 9, ...` (highlighters.cc lines
1047-1060). -/
def chunk4 : List (List Char) → List (List Char × List Char × List Char × List Char)
  | a :: b :: c :: d :: rest => (a, b, c, d) :: chunk4 rest
  | _ => []

/-- The body of the factory's per-region loop (highlighters.cc lines
1047-1060), group by group in order: reject an empty group id, begin or
end (line 1049); then compile the begin, the end, and — when non-empty —
the recurse pattern (lines 1052-1056).  Regex compilation is an external
library (boost), so it is abstracted by the `regexOk` predicate: a
pattern whose compilation fails throws `boost::regex_error`, rethrown as
a `runtime_error` by the catch at lines 1072-1075.  Returns the first
error, or `none` when every group passes. -/
def region_checks (regexOk : List Char → Bool) :
    List (List Char × List Char × List Char × List Char) → Option (List Char)
  | [] => none
  | r :: rest =>
    if (r.1.isEmpty || r.2.1.isEmpty || r.2.2.1.isEmpty) = true then
      some "group id, begin and end must not be empty".data
    else if regexOk r.2.1 = false then
      some "regex error".data
    else if regexOk r.2.2.1 = false then
      some "regex error".data
    else if r.2.2.2.isEmpty = false ∧ regexOk r.2.2.2 = false then
      some "regex error".data
    else region_checks regexOk rest

/-- `regions_factory` (highlighters.cc lines 1032-1076) composed with the
`RegionsHighlighter` constructor checks (lines 876-885), over the
positional parameters (the `-default` switch takes part in no check).
A thrown `runtime_error` is `.error`; the highlighter is installed only
in the `.ok` case.  `regexOk` abstracts boost regex compilation (see
`region_checks`).  A `Regex` compiled from a non-empty pattern is
non-empty, so of the constructor's checks only the empty-region-list one
(positional count 1) remains reachable. -/
def regions_factory (regexOk : List Char → Bool) (positionals : List (List Char)) :
    Except (List Char) (List Char × List (List Char × List Char × List Char × List Char)) :=
  if positionals.length % 4 ≠ 1 then
    .error "wrong parameter count".data
  else
    match region_checks regexOk (chunk4 (positionals.drop 1)) with
    | some msg => .error msg
    | none =>
      if chunk4 (positionals.drop 1) = [] then
        .error "at least one region must be defined".data
      else
        .ok (positionals.headD [], chunk4 (positionals.drop 1))

/-- The failure condition exactly as the claim words it: no region
defined, or some region's begin or end pattern is an empty string (the
group id is not mentioned, nor is a pattern that fails to compile; an
empty recurse is accepted).  Stated from the spec, for comparison with
`regions_factory`. -/
def claimed_factory_failure (positionals : List (List Char)) : Bool :=
  (chunk4 (positionals.drop 1)).isEmpty ||
  (chunk4 (positionals.drop 1)).any (fun r => r.2.1.isEmpty || r.2.2.1.isEmpty)

/-- Counterexample for C6, twice over.  With parameters `hl g "(" ")" ""`
(one region, non-empty group id, begin and end) the claim's condition
does not hold, yet the factory fails when the begin pattern `"("` does
not compile: highlighters.cc lines 1052-1056 compile each pattern and
the catch at 1072-1075 rethrows the compilation error.  And with
parameters `hl "" bb ee ""` — even under a regex compiler that accepts
everything — the factory fails because line 1049 also rejects an empty
group id. -/
theorem regions_factory_error_iff_cex :
    isError (regions_factory (fun p => !(p == "(".data))
        ["hl".data, "g".data, "(".data, ")".data, []]) = true ∧
    claimed_factory_failure ["hl".data, "g".data, "(".data, ")".data, []] = false ∧
    isError (regions_factory (fun _ => true)
        ["hl".data, [], "bb".data, "ee".data, []]) = true ∧
    claimed_factory_failure ["hl".data, [], "bb".data, "ee".data, []] = false := by
  decide

/-- `region_checks` finds an error exactly when some group has an empty
id, begin or end, a begin or end pattern that does not compile, or a
non-empty recurse pattern that does not compile. -/
theorem region_checks_isSome_iff (regexOk : List Char → Bool) :
    ∀ (l : List (List Char × List Char × List Char × List Char)),
      (region_checks regexOk l).isSome = true ↔
        ∃ r ∈ l, r.1 = [] ∨ r.2.1 = [] ∨ r.2.2.1 = [] ∨
          regexOk r.2.1 = false ∨ regexOk r.2.2.1 = false ∨
          (r.2.2.2 ≠ [] ∧ regexOk r.2.2.2 = false) := by
  intro l
  induction l with
  | nil => simp [region_checks]
  | cons r rest ih =>
    simp only [region_checks]
    by_cases h1 : (r.1.isEmpty || r.2.1.isEmpty || r.2.2.1.isEmpty) = true
    · rw [if_pos h1]
      simp only [Option.isSome_some, true_iff]
      refine ⟨r, List.mem_cons_self r rest, ?_⟩
      rcases (show r.1 = [] ∨ r.2.1 = [] ∨ r.2.2.1 = [] by
          simpa [List.isEmpty_iff, or_assoc] using h1) with h | h | h
      · exact Or.inl h
      · exact Or.inr (Or.inl h)
      · exact Or.inr (Or.inr (Or.inl h))
    · rw [if_neg h1]
      have hne : r.1 ≠ [] ∧ r.2.1 ≠ [] ∧ r.2.2.1 ≠ [] := by
        simpa [List.isEmpty_iff, or_assoc, not_or] using h1
      by_cases h2 : regexOk r.2.1 = false
      · rw [if_pos h2]
        simp only [Option.isSome_some, true_iff]
        exact ⟨r, List.mem_cons_self r rest,
          Or.inr (Or.inr (Or.inr (Or.inl h2)))⟩
      · rw [if_neg h2]
        by_cases h3 : regexOk r.2.2.1 = false
        · rw [if_pos h3]
          simp only [Option.isSome_some, true_iff]
          exact ⟨r, List.mem_cons_self r rest,
            Or.inr (Or.inr (Or.inr (Or.inr (Or.inl h3))))⟩
        · rw [if_neg h3]
          by_cases h4 : (r.2.2.2.isEmpty = false ∧ regexOk r.2.2.2 = false)
          · rw [if_pos h4]
            simp only [Option.isSome_some, true_iff]
            refine ⟨r, List.mem_cons_self r rest,
              Or.inr (Or.inr (Or.inr (Or.inr (Or.inr ⟨?_, h4.2⟩))))⟩
            intro hnil
            have hemp := h4.1
            rw [hnil] at hemp
            simp at hemp
          · rw [if_neg h4, ih]
            constructor
            · rintro ⟨x, hx, hfail⟩
              exact ⟨x, List.mem_cons_of_mem r hx, hfail⟩
            · rintro ⟨x, hx, hfail⟩
              rcases List.mem_cons.mp hx with rfl | hx'
              · exfalso
                rcases hfail with h | h | h | h | h | h
                · exact hne.1 h
                · exact hne.2.1 h
                · exact hne.2.2 h
                · exact h2 h
                · exact h3 h
                · refine h4 ⟨?_, h.2⟩
                  cases hx2 : x.2.2.2.isEmpty
                  · rfl
                  · exact absurd (List.isEmpty_iff.mp hx2) h.1
              · exact ⟨x, hx', hfail⟩

/-- C6 (amended): constructing a regions highlighter fails — and the
highlighter is not installed — exactly when the positional count is not
congruent to 1 mod 4, or no region is defined (count 1), or some region's
group id, begin pattern or end pattern is an empty string, or its begin
or end pattern fails to compile, or its recurse pattern is non-empty and
fails to compile; an empty recurse pattern is accepted (no recursion). -/
theorem regions_factory_error_iff (regexOk : List Char → Bool)
    (positionals : List (List Char)) :
    isError (regions_factory regexOk positionals) = true ↔
      (positionals.length % 4 ≠ 1 ∨
       chunk4 (positionals.drop 1) = [] ∨
       ∃ r ∈ chunk4 (positionals.drop 1),
         r.1 = [] ∨ r.2.1 = [] ∨ r.2.2.1 = [] ∨
         regexOk r.2.1 = false ∨ regexOk r.2.2.1 = false ∨
         (r.2.2.2 ≠ [] ∧ regexOk r.2.2.2 = false)) := by
  unfold regions_factory
  split
  · rename_i h1
    simp only [isError]
    exact ⟨fun _ => Or.inl h1, fun _ => trivial⟩
  · rename_i h1
    cases hrc : region_checks regexOk (chunk4 (positionals.drop 1)) with
    | some msg =>
      simp only [isError]
      constructor
      · intro _
        exact Or.inr (Or.inr ((region_checks_isSome_iff regexOk _).mp
          (by rw [hrc]; rfl)))
      · intro _
        trivial
    | none =>
      dsimp only
      split
      · rename_i h3
        simp only [isError]
        exact ⟨fun _ => Or.inr (Or.inl h3), fun _ => trivial⟩
      · rename_i h3
        simp only [isError]
        constructor
        · intro h
          exact absurd h (by simp)
        · intro h
          rcases h with h | h | h
          · exact absurd h h1
          · exact absurd h h3
          · have hsome := (region_checks_isSome_iff regexOk _).mpr h
            rw [hrc] at hsome
            simp at hsome

/-! ## Display buffer model (display_buffer.hh; display_buffer.cc is not
in src, so DisplayLine::split and the range computations follow the spec,
sections 3 and 4.1) -/

/-- `HighlightFlags` (highlighter.hh lines 17-21). -/
inductive HighlightFlags where
  | Highlight
  | MoveOnly
deriving DecidableEq, Repr

/-- Colours, as used by the highlighters (color.hh is not in src; only
`Default`, `Black` and `Red` appear in highlighters.cc). -/
inductive Color where
  | Default
  | Black
  | Red
  | Green
  | Blue
  | White
deriving DecidableEq, Repr

/-- `Face`: foreground, background, attribute bitmask (face.hh is not in
src; `Attribute::Normal` is the zero mask). -/
structure Face where
  fg : Color
  bg : Color
  attributes : Nat
deriving DecidableEq, Repr

instance : Inhabited Face := ⟨⟨Color.Default, Color.Default, 0⟩⟩

/-- `apply_face` (highlighters.cc lines 152-162): overlay `face` on an
atom's face — replace non-default colours, or the attribute bits. -/
def apply_face (face : Face) (af : Face) : Face :=
  { fg := if face.fg ≠ Color.Default then face.fg else af.fg,
    bg := if face.bg ≠ Color.Default then face.bg else af.bg,
    attributes := if face.attributes ≠ 0 then af.attributes ||| face.attributes
                  else af.attributes }

/-- `DisplayAtom::Type` (display_buffer.hh line 18). -/
inductive AtomKind where
  | BufferRange
  | ReplacedBufferRange
  | Text
deriving DecidableEq, Repr

/-- `DisplayAtom` (display_buffer.hh lines 15-114): type tag, buffer
coordinates (meaningful unless `Text`), owned text (meaningful unless
`BufferRange`) and a face. -/
structure DisplayAtom where
  kind : AtomKind
  begin : ByteCoord
  end_ : ByteCoord
  text : List Char
  face : Face
deriving DecidableEq, Repr

instance : Inhabited DisplayAtom :=
  ⟨⟨AtomKind.Text, ⟨0, 0⟩, ⟨0, 0⟩, [], default⟩⟩

/-- `DisplayAtom::has_buffer_range` (display_buffer.hh lines 83-86). -/
def DisplayAtom.has_buffer_range (a : DisplayAtom) : Bool :=
  a.kind == AtomKind.BufferRange || a.kind == AtomKind.ReplacedBufferRange

/-- `DisplayAtom::replace` (display_buffer.hh lines 76-81). -/
def DisplayAtom.replace (a : DisplayAtom) (t : List Char) : DisplayAtom :=
  { a with kind := AtomKind.ReplacedBufferRange, text := t }

def INT_MAX : Int := 2147483647
def INT_MIN : Int := -2147483648

/-- `DisplayLine::range` after `compute_range` (spec section 3: the cached
`(min-begin, max-end)` over atoms with buffer ranges, recomputed after
every operation; sentinel from display_buffer.hh line 156). -/
def lineRange (line : List DisplayAtom) : ByteCoord × ByteCoord :=
  line.foldl
    (fun r a => if a.has_buffer_range then (min r.1 a.begin, max r.2 a.end_) else r)
    (⟨INT_MAX, INT_MAX⟩, ⟨INT_MIN, INT_MIN⟩)

/-- `DisplayBuffer::range` after `compute_range`: the smallest range
containing every atom (display_buffer.hh lines 169-172). -/
def displayRange (db : List (List DisplayAtom)) : ByteCoord × ByteCoord :=
  db.foldl
    (fun r line => (min r.1 (lineRange line).1, max r.2 (lineRange line).2))
    (⟨INT_MAX, INT_MAX⟩, ⟨INT_MIN, INT_MIN⟩)

/-- One pass of the atom loop of `highlight_range` (highlighters.cc lines
42-64) on a single atom: the pieces that replace it.  A split
(`DisplayLine::split`, spec section 4.1) yields `[begin,pos)` and
`[pos,end)` with the same face; the left half of a begin-split is left
unprocessed, the right half of an end-split is stepped over
(`++atom_it`). -/
def hlAtom (b e : ByteCoord) (skip_replaced : Bool)
    (f : DisplayAtom → DisplayAtom) (a : DisplayAtom) : List DisplayAtom :=
  let is_replaced := a.kind == AtomKind.ReplacedBufferRange
  if ¬ a.has_buffer_range || (skip_replaced && is_replaced) then [a]
  else if e ≤ a.begin ∨ b ≥ a.end_ then [a]
  else
    let pc : List DisplayAtom × DisplayAtom :=
      if ¬ is_replaced = true ∧ b > a.begin then
        ([{ a with end_ := b }], { a with begin := b })
      else ([], a)
    if ¬ is_replaced = true ∧ e < pc.2.end_ then
      pc.1 ++ [f { pc.2 with end_ := e }, { pc.2 with begin := e }]
    else
      pc.1 ++ [f pc.2]

/-- `highlight_range` (highlighters.cc lines 27-66). -/
def highlight_range (db : List (List DisplayAtom)) (b e : ByteCoord)
    (skip_replaced : Bool) (f : DisplayAtom → DisplayAtom) :
    List (List DisplayAtom) :=
  if b = e ∨ e ≤ (displayRange db).1 ∨ b ≥ (displayRange db).2 then db
  else
    db.map (fun line =>
      if (lineRange line).2 ≤ b ∨ e < (lineRange line).1 then line
      else line.flatMap (hlAtom b e skip_replaced f))

/-- The claim's wording of the atom step (spec section 4.2): any atom
straddling `begin` is split at `begin`, any straddling `end` split at
`end` — with no exception for `ReplacedBufferRange` (which the claim
only exempts when `skip_replaced`).  Stated from the spec for comparison
with `hlAtom` / `highlight_range`. -/
def hlAtom_claimed (b e : ByteCoord) (skip_replaced : Bool)
    (f : DisplayAtom → DisplayAtom) (a : DisplayAtom) : List DisplayAtom :=
  let is_replaced := a.kind == AtomKind.ReplacedBufferRange
  if ¬ a.has_buffer_range || (skip_replaced && is_replaced) then [a]
  else if e ≤ a.begin ∨ b ≥ a.end_ then [a]
  else
    let pc : List DisplayAtom × DisplayAtom :=
      if b > a.begin then
        ([{ a with end_ := b }], { a with begin := b })
      else ([], a)
    if e < pc.2.end_ then
      pc.1 ++ [f { pc.2 with end_ := e }, { pc.2 with begin := e }]
    else
      pc.1 ++ [f pc.2]

/-- `highlight_range` as the claim describes it, using `hlAtom_claimed`. -/
def highlight_range_claimed (db : List (List DisplayAtom)) (b e : ByteCoord)
    (skip_replaced : Bool) (f : DisplayAtom → DisplayAtom) :
    List (List DisplayAtom) :=
  if b = e ∨ e ≤ (displayRange db).1 ∨ b ≥ (displayRange db).2 then db
  else
    db.map (fun line =>
      if (lineRange line).2 ≤ b ∨ e < (lineRange line).1 then line
      else line.flatMap (hlAtom_claimed b e skip_replaced f))

/-- The `fill` highlighter (highlighters.cc lines 174-180): overlay one
face over the whole display-buffer range; `flags` is not consulted. -/
def fill (face : Face) (flags : HighlightFlags) (db : List (List DisplayAtom)) :
    List (List DisplayAtom) :=
  highlight_range db (displayRange db).1 (displayRange db).2 true
    (fun a => { a with face := apply_face face a.face })

/-! ## The other simple highlighters (highlighters.cc lines 418-663).
Buffer primitives (`byte_at`, `char_next`, `get_column`) are modelled at
byte level — buffer.hh / buffer_utils.hh are not in src — matching the
spec's external-interface description; one `Char` stands for one byte,
as everywhere in this development. -/

/-- `Buffer::byte_at`. -/
def byte_at (buffer : List (List Char)) (c : ByteCoord) : Char :=
  (buffer.getD c.line.toNat []).getD c.column.toNat ' '

/-- `Buffer::char_next` / `BufferIterator` increment (byte-level): next
column, or the start of the next line at end of line. -/
def char_next (buffer : List (List Char)) (c : ByteCoord) : ByteCoord :=
  if c.column + 1 < ((buffer.getD c.line.toNat []).length : Int) then
    ⟨c.line, c.column + 1⟩
  else ⟨c.line + 1, 0⟩

/-- `get_column` (buffer_utils, not in src): the display column of a
coordinate with tabs expanded to the next multiple of `tabstop`. -/
def get_column_go (tabstop : Int) : Int → List Char → Int
  | col, [] => col
  | col, ch :: rest =>
    get_column_go tabstop
      (if ch = '\t' then (col / tabstop) * tabstop + tabstop else col + 1) rest

def get_column (buffer : List (List Char)) (tabstop : Int) (c : ByteCoord) : Int :=
  get_column_go tabstop 0 ((buffer.getD c.line.toNat []).take c.column.toNat)

/-- The byte coordinates covered by a buffer-range atom, honouring the
atom invariant (`begin.line = end.line`, or `begin.line+1 = end.line`
with `end.column = 0`, i.e. up to the end of the begin line). -/
def atomCoords (buffer : List (List Char)) (a : DisplayAtom) : List ByteCoord :=
  let hi : Int := if a.begin.line = a.end_.line then a.end_.column
    else ((buffer.getD a.begin.line.toNat []).length : Int)
  (List.range (hi - a.begin.column).toNat).map
    (fun i => ⟨a.begin.line, a.begin.column + (i : Int)⟩)

/-- The shared loop of `expand_tabulations` (highlighters.cc lines
422-450) and `show_whitespaces` (lines 457-493): for each `BufferRange`
atom, find the first byte satisfying `pred`; split before and after it
(when it is not already at the atom's boundary), `replace` that
one-byte atom with `repl`'s text, and continue with the atoms after it
(the split-off tail is revisited by the outer loop, handling later
matches).  `fuel` bounds the iterations, which in C++ are bounded by the
buffer itself. -/
def replace_chars_go (buffer : List (List Char)) (pred : Char → Bool)
    (repl : ByteCoord → Char → List Char) :
    Nat → List DisplayAtom → List DisplayAtom
  | 0, l => l
  | _ + 1, [] => []
  | fuel + 1, a :: rest =>
    if a.kind == AtomKind.BufferRange then
      match (atomCoords buffer a).find? (fun c => pred (byte_at buffer c)) with
      | none => a :: replace_chars_go buffer pred repl fuel rest
      | some tpos =>
        let next : ByteCoord := char_next buffer tpos
        let pre := if tpos ≠ a.begin then [{ a with end_ := tpos }] else []
        let mid0 := if tpos ≠ a.begin then { a with begin := tpos } else a
        let hasPost := next ≠ a.end_
        let mid := if hasPost then { mid0 with end_ := next } else mid0
        let post := if hasPost then [{ mid0 with begin := next }] else []
        pre ++ [mid.replace (repl tpos (byte_at buffer tpos))] ++
          replace_chars_go buffer pred repl fuel (post ++ rest)
    else a :: replace_chars_go buffer pred repl fuel rest

def atomFuel (buffer : List (List Char)) (atoms : List DisplayAtom) : Nat :=
  (atoms.map (fun a => 1 + (atomCoords buffer a).length)).sum + 1

/-- `expand_tabulations` (highlighters.cc lines 418-451): replace each
tab with spaces up to the next tabstop; `flags` is not consulted. -/
def expand_tabulations (buffer : List (List Char)) (tabstop : Int)
    (flags : HighlightFlags) (db : List (List DisplayAtom)) :
    List (List DisplayAtom) :=
  db.map (fun line =>
    replace_chars_go buffer (fun c => c == '\t')
      (fun tpos _ =>
        List.replicate (tabstop - (get_column buffer tabstop tpos) % tabstop).toNat ' ')
      (atomFuel buffer line) line)

/-- `show_whitespaces` (highlighters.cc lines 453-494): tabs become `→`
plus spaces to the next tabstop, spaces `·`, newlines `¬`; `flags` is
not consulted. -/
def show_whitespaces (buffer : List (List Char)) (tabstop : Int)
    (flags : HighlightFlags) (db : List (List DisplayAtom)) :
    List (List DisplayAtom) :=
  db.map (fun line =>
    replace_chars_go buffer (fun c => c == '\t' || c == ' ' || c == '\n')
      (fun tpos c =>
        if c = '\t' then
          '→' :: List.replicate
            ((tabstop - (get_column buffer tabstop tpos) % tabstop).toNat - 1) ' '
        else if c = ' ' then ['·'] else ['¬'])
      (atomFuel buffer line) line)

/-- The `for (LineCount c = last_line; c > 0; c /= 10) ++digit_count`
loop of `show_line_numbers` (highlighters.cc lines 499-501): the number
of decimal digits (fuel-structured; `n` iterations always suffice). -/
def digit_count_go : Nat → Nat → Nat
  | 0, _ => 0
  | fuel + 1, c => if 0 < c then 1 + digit_count_go fuel (c / 10) else 0

def digit_count (n : Nat) : Nat := digit_count_go n n

/-- Decimal digits of a number, most significant first. -/
def natDigits_go : Nat → Nat → List Char
  | 0, _ => []
  | fuel + 1, n =>
    if 0 < n then natDigits_go fuel (n / 10) ++ [Nat.digitChar (n % 10)] else []

def natDigits (n : Nat) : List Char :=
  if n = 0 then ['0'] else natDigits_go n n

/-- `snprintf(buffer, 10, "%Nd│", v)`: the number right-aligned in a
field of `width` characters, space padded, followed by `│`. -/
def format_line_number (width : Nat) (n : Int) : List Char :=
  let s := natDigits n.toNat
  List.replicate (width - s.length) ' ' ++ s ++ ['│']

/-- `show_line_numbers` (highlighters.cc lines 496-514): prepend to every
display line a text atom `"%Nd│"` of `line.range().first.line + 1`,
where `N` is the digit count of the buffer's line count, with the
`LineNumbers` face; `flags` is not consulted. -/
def show_line_numbers (line_count : Int) (face : Face)
    (flags : HighlightFlags) (db : List (List DisplayAtom)) :
    List (List DisplayAtom) :=
  db.map (fun line =>
    (⟨AtomKind.Text, ⟨0, 0⟩, ⟨0, 0⟩,
      format_line_number (digit_count line_count.toNat) ((lineRange line).1.line + 1),
      face⟩ : DisplayAtom) :: line)

/-- The highlighter built by `flag_lines_factory` (highlighters.cc lines
640-662): prepend a fixed-width flag column; `lines_opt` is the
`(line, colour, text)` option value, `bg` the configured background;
`flags` is not consulted. -/
def flag_lines (bg : Color) (lines_opt : List (Int × Color × List Char))
    (flags : HighlightFlags) (db : List (List DisplayAtom)) :
    List (List DisplayAtom) :=
  let width := (lines_opt.map (fun l => l.2.2.length)).foldl max 0
  let empty := List.replicate width ' '
  db.map (fun line =>
    let line_num := (lineRange line).1.line + 1
    let found := lines_opt.find? (fun l => l.1 == line_num)
    let content := match found with
      | some l => l.2.2
      | none => empty
    let fg := match found with
      | some l => l.2.1
      | none => Color.Default
    (⟨AtomKind.Text, ⟨0, 0⟩, ⟨0, 0⟩,
      content ++ List.replicate (width - content.length) ' ',
      ⟨fg, bg, 0⟩⟩ : DisplayAtom) :: line)

/-- `highlight_selections` (highlighters.cc lines 568-593): the one
simple highlighter that checks `flags` — it returns unchanged unless
`flags == Highlight`.  `sels` is the `(anchor, cursor)` list, `main` the
main selection index; the four faces are PrimarySelection,
SecondarySelection, PrimaryCursor, SecondaryCursor. -/
def highlight_selections (buffer : List (List Char))
    (sels : List (ByteCoord × ByteCoord)) (main : Nat)
    (psFace ssFace pcFace scFace : Face) (flags : HighlightFlags)
    (db : List (List DisplayAtom)) : List (List DisplayAtom) :=
  if flags ≠ HighlightFlags.Highlight then db
  else
    let db1 := sels.enum.foldl (fun acc is =>
      let sel := is.2
      let forward := sel.1 ≤ sel.2
      let b := if forward then sel.1 else char_next buffer sel.2
      let e := if forward then sel.2 else char_next buffer sel.1
      let face := if is.1 = main then psFace else ssFace
      highlight_range acc b e false
        (fun a => { a with face := apply_face face a.face })) db
    sels.enum.foldl (fun acc is =>
      let sel := is.2
      let face := if is.1 = main then pcFace else scFace
      highlight_range acc sel.2 (char_next buffer sel.2) false
        (fun a => { a with face := apply_face face a.face })) db1

/-- `expand_unprintable` (highlighters.cc lines 595-627): replace each
unprintable non-newline byte with its `U+` hex notation, red on black
(`iswprint` is locale-provided, so printability is a parameter; the
byte-level model covers the ASCII fragment, where one byte is one
codepoint). -/
def expand_unprintable (buffer : List (List Char)) (isPrint : Char → Bool)
    (flags : HighlightFlags) (db : List (List DisplayAtom)) :
    List (List DisplayAtom) :=
  db.map (fun line =>
    (replace_chars_go buffer (fun c => ¬ (c == '\n') && ¬ isPrint c)
      (fun _ c => "U+".data ++ Nat.toDigits 16 c.toNat)
      (atomFuel buffer line) line).map
      (fun a =>
        if a.kind == AtomKind.ReplacedBufferRange &&
            (¬ (byte_at buffer a.begin == '\n') && ¬ isPrint (byte_at buffer a.begin)) then
          { a with face := ⟨Color.Red, Color.Black, 0⟩ }
        else a))

/-- `show_matching_char`'s bracket pairs (highlighters.cc line 520). -/
def matching_chars : List (Char × Char) :=
  [('(', ')'), ('\x7b', '\x7d'), ('[', ']'), ('<', '>')]

/-- The byte coordinates in `[b, e)`. -/
def coordsFromTo (buffer : List (List Char)) (b e : ByteCoord) : List ByteCoord :=
  (List.range (e.line - b.line + 1).toNat).flatMap (fun i =>
    let l := b.line + (i : Int)
    let lo := if l = b.line then b.column else 0
    let hi := if l = e.line then e.column
      else ((buffer.getD l.toNat []).length : Int)
    (List.range (hi - lo).toNat).map (fun j => ⟨l, lo + (j : Int)⟩))

/-- The forward `skip_while` of `show_matching_char` (highlighters.cc
lines 536-542): first closing bracket at nesting level zero. -/
def scan_forward (buffer : List (List Char)) (openC closeC : Char) :
    List ByteCoord → Nat → Option ByteCoord
  | [], _ => none
  | c :: rest, level =>
    let ch := byte_at buffer c
    if ch == openC then scan_forward buffer openC closeC rest (level + 1)
    else if ch == closeC then
      if level = 1 then some c else scan_forward buffer openC closeC rest (level - 1)
    else scan_forward buffer openC closeC rest level

/-- The backward `skip_while_reverse` of `show_matching_char`
(highlighters.cc lines 552-559); the last coordinate plays `end`, where
the scan stops and `*end == pair.first and level == 1` is checked. -/
def scan_backward (buffer : List (List Char)) (openC closeC : Char) :
    List ByteCoord → Nat → Option ByteCoord
  | [], _ => none
  | [c], level =>
    if byte_at buffer c == openC && level == 1 then some c else none
  | c :: rest, level =>
    let ch := byte_at buffer c
    if ch == closeC then scan_backward buffer openC closeC rest (level + 1)
    else if ch == openC then
      if level = 1 then some c else scan_backward buffer openC closeC rest (level - 1)
    else scan_backward buffer openC closeC rest level

/-- `show_matching_char` (highlighters.cc lines 516-566): for each
selection cursor on a bracket inside the viewport range, highlight the
matching partner with the MatchingChar face; `flags` is not
consulted. -/
def show_matching_char (buffer : List (List Char)) (cursors : List ByteCoord)
    (face : Face) (flags : HighlightFlags) (db : List (List DisplayAtom)) :
    List (List DisplayAtom) :=
  let range := displayRange db
  cursors.foldl (fun acc pos =>
    if pos < range.1 ∨ ¬ pos < range.2 then acc
    else
      let c := byte_at buffer pos
      match matching_chars.find? (fun p => c == p.1) with
      | some p =>
        match scan_forward buffer p.1 p.2
            (coordsFromTo buffer (char_next buffer pos) range.2) 1 with
        | some c' => highlight_range acc c' (char_next buffer c') false
            (fun a => { a with face := apply_face face a.face })
        | none => acc
      | none =>
        match matching_chars.find? (fun p => c == p.2) with
        | some p =>
          if range.1 < pos then
            match scan_backward buffer p.1 p.2
                ((coordsFromTo buffer range.1 pos).reverse) 1 with
            | some c' => highlight_range acc c' (char_next buffer c') false
                (fun a => { a with face := apply_face face a.face })
            | none => acc
          else acc
        | none => acc) db

/-! ### C2: the MoveOnly pass -/

/-- Counterexample for C2: `fill` never consults `flags` (highlighters.cc
lines 174-180) — invoked with `MoveOnly` it still restyles the atom, so
the display buffer does not stay unchanged. -/
theorem fill_moveonly_cex :
    fill ⟨Color.Red, Color.Default, 0⟩ HighlightFlags.MoveOnly
      [[⟨AtomKind.BufferRange, ⟨0, 0⟩, ⟨0, 4⟩, [],
         ⟨Color.Default, Color.Default, 0⟩⟩]]
    ≠ [[⟨AtomKind.BufferRange, ⟨0, 0⟩, ⟨0, 4⟩, [],
         ⟨Color.Default, Color.Default, 0⟩⟩]] := by
  decide

/-- C2 (amended): among the simple highlighters only `highlight_selections`
consults `flags` — it leaves the display buffer unchanged unless the flags
are `Highlight`; `fill`, `expand_tabulations`, `show_whitespaces`,
`show_line_numbers`, `flag_lines`, `expand_unprintable` and
`show_matching_char` ignore `flags` entirely, so their `MoveOnly` pass
performs exactly what their `Highlight` pass does (including style
changes). -/
theorem simple_highlighters_flags (face lnFace mcFace : Face) (bg : Color)
    (buffer : List (List Char)) (tabstop line_count : Int)
    (lines_opt : List (Int × Color × List Char)) (isPrint : Char → Bool)
    (cursors : List ByteCoord) (sels : List (ByteCoord × ByteCoord))
    (main : Nat) (psF ssF pcF scF : Face) (flags : HighlightFlags)
    (db : List (List DisplayAtom)) :
    fill face flags db = fill face HighlightFlags.Highlight db ∧
    expand_tabulations buffer tabstop flags db
      = expand_tabulations buffer tabstop HighlightFlags.Highlight db ∧
    show_whitespaces buffer tabstop flags db
      = show_whitespaces buffer tabstop HighlightFlags.Highlight db ∧
    show_line_numbers line_count lnFace flags db
      = show_line_numbers line_count lnFace HighlightFlags.Highlight db ∧
    flag_lines bg lines_opt flags db
      = flag_lines bg lines_opt HighlightFlags.Highlight db ∧
    expand_unprintable buffer isPrint flags db
      = expand_unprintable buffer isPrint HighlightFlags.Highlight db ∧
    show_matching_char buffer cursors mcFace flags db
      = show_matching_char buffer cursors mcFace HighlightFlags.Highlight db ∧
    highlight_selections buffer sels main psF ssF pcF scF
        HighlightFlags.MoveOnly db = db :=
  ⟨rfl, rfl, rfl, rfl, rfl, rfl, rfl, rfl⟩

/-! ### C3: highlight_range -/

/-- `hlAtom` in closed form: skipped / untouched atoms stay; an
overlapping `ReplacedBufferRange` (when not skipped) goes to `f` whole,
never split; an overlapping `BufferRange` is split at `b` and `e` as
needed, `f` applied to the clamped middle `[max(begin,b), min(end,e))`. -/
theorem hlAtom_eq (b e : ByteCoord) (skip : Bool)
    (f : DisplayAtom → DisplayAtom) (a : DisplayAtom) :
    hlAtom b e skip f a =
      if ¬ a.has_buffer_range = true
          ∨ (skip = true ∧ a.kind = AtomKind.ReplacedBufferRange)
          ∨ e ≤ a.begin ∨ b ≥ a.end_ then [a]
      else if a.kind = AtomKind.ReplacedBufferRange then [f a]
      else (if b > a.begin then [{ a with end_ := b }] else []) ++
           [f { a with begin := max a.begin b, end_ := min a.end_ e }] ++
           (if e < a.end_ then [{ a with begin := e }] else []) := by
  cases a with
  | mk kind ab ae text fc =>
    cases kind with
    | Text => simp [hlAtom, DisplayAtom.has_buffer_range]
    | ReplacedBufferRange =>
      cases skip with
      | true => simp [hlAtom, DisplayAtom.has_buffer_range]
      | false =>
        by_cases hov : e ≤ ab ∨ b ≥ ae
        · simp [hlAtom, DisplayAtom.has_buffer_range, hov]
        · simp [hlAtom, DisplayAtom.has_buffer_range, hov]
    | BufferRange =>
      by_cases hov : e ≤ ab ∨ b ≥ ae
      · simp [hlAtom, DisplayAtom.has_buffer_range, hov]
      · by_cases hsb : b > ab
        · by_cases hse : e < ae
          · simp [hlAtom, DisplayAtom.has_buffer_range, hov, hsb, hse,
              max_eq_right (le_of_lt hsb), min_eq_right (le_of_lt hse)]
          · simp [hlAtom, DisplayAtom.has_buffer_range, hov, hsb, hse,
              max_eq_right (le_of_lt hsb), min_eq_left (not_lt.mp hse)]
        · by_cases hse : e < ae
          · simp [hlAtom, DisplayAtom.has_buffer_range, hov, hsb, hse,
              max_eq_left (not_lt.mp hsb), min_eq_right (le_of_lt hse)]
          · simp [hlAtom, DisplayAtom.has_buffer_range, hov, hsb, hse,
              max_eq_left (not_lt.mp hsb), min_eq_left (not_lt.mp hse)]

/-- Counterexample for C3: a `ReplacedBufferRange` atom straddling `begin`
with `skip_replaced` false is passed whole to `f` (highlighters.cc lines
53-63 split only non-replaced atoms); the claim's unconditional
begin-split produces a different display buffer. -/
theorem highlight_range_replaced_cex :
    highlight_range
        [[⟨AtomKind.ReplacedBufferRange, ⟨0, 0⟩, ⟨0, 4⟩, "ab".data,
           ⟨Color.Default, Color.Default, 0⟩⟩]]
        ⟨0, 2⟩ ⟨0, 6⟩ false
        (fun a => { a with face := ⟨Color.Red, Color.Default, 0⟩ })
    ≠ highlight_range_claimed
        [[⟨AtomKind.ReplacedBufferRange, ⟨0, 0⟩, ⟨0, 4⟩, "ab".data,
           ⟨Color.Default, Color.Default, 0⟩⟩]]
        ⟨0, 2⟩ ⟨0, 6⟩ false
        (fun a => { a with face := ⟨Color.Red, Color.Default, 0⟩ }) := by
  decide

/-- C3 (amended): when the whole-range guard passes, `highlight_range`
leaves untouched the lines not overlapping `[b, e)`, and within a line
replaces each atom by: itself when it has no buffer range, is a skipped
replaced atom, or does not overlap `[b, e)`; `f` of the whole atom when it
is a non-skipped `ReplacedBufferRange` (even one straddling a boundary —
replaced atoms are never split); otherwise the begin-split remainder, `f`
of the middle clamped to `[max(begin,b), min(end,e))`, and the end-split
remainder. -/
theorem highlight_range_amended (db : List (List DisplayAtom))
    (b e : ByteCoord) (skip : Bool) (f : DisplayAtom → DisplayAtom)
    (hne : ¬ (b = e ∨ e ≤ (displayRange db).1 ∨ b ≥ (displayRange db).2)) :
    highlight_range db b e skip f
      = db.map (fun line =>
          if (lineRange line).2 ≤ b ∨ e < (lineRange line).1 then line
          else line.flatMap (fun a =>
            if ¬ a.has_buffer_range = true
                ∨ (skip = true ∧ a.kind = AtomKind.ReplacedBufferRange)
                ∨ e ≤ a.begin ∨ b ≥ a.end_ then [a]
            else if a.kind = AtomKind.ReplacedBufferRange then [f a]
            else (if b > a.begin then [{ a with end_ := b }] else []) ++
                 [f { a with begin := max a.begin b, end_ := min a.end_ e }] ++
                 (if e < a.end_ then [{ a with begin := e }] else []))) := by
  unfold highlight_range
  rw [if_neg hne, funext (hlAtom_eq b e skip f)]

/-- Witness for C3's amended statement: a buffer-range atom `[0,4)` under
`highlight_range` on `[1,3)` is split into `[0,1)`, the restyled `[1,3)`
and `[3,4)`. -/
theorem highlight_range_amended_witness :
    highlight_range
        [[⟨AtomKind.BufferRange, ⟨0, 0⟩, ⟨0, 4⟩, [],
           ⟨Color.Default, Color.Default, 0⟩⟩]]
        ⟨0, 1⟩ ⟨0, 3⟩ false
        (fun a => { a with face := ⟨Color.Red, Color.Default, 0⟩ })
      = [[⟨AtomKind.BufferRange, ⟨0, 0⟩, ⟨0, 1⟩, [],
           ⟨Color.Default, Color.Default, 0⟩⟩,
          ⟨AtomKind.BufferRange, ⟨0, 1⟩, ⟨0, 3⟩, [],
           ⟨Color.Red, Color.Default, 0⟩⟩,
          ⟨AtomKind.BufferRange, ⟨0, 3⟩, ⟨0, 4⟩, [],
           ⟨Color.Default, Color.Default, 0⟩⟩]] :=
  highlight_range_amended
    [[⟨AtomKind.BufferRange, ⟨0, 0⟩, ⟨0, 4⟩, [],
       ⟨Color.Default, Color.Default, 0⟩⟩]]
    ⟨0, 1⟩ ⟨0, 3⟩ false
    (fun a => { a with face := ⟨Color.Red, Color.Default, 0⟩ })
    (by decide)

/-! ### C10: the line-number column width -/

theorem digit_count_go_zero (fuel : Nat) : digit_count_go fuel 0 = 0 := by
  cases fuel <;> simp [digit_count_go]

/-- The `c /= 10` loop computes the number of decimal digits: its result
`N` satisfies `10^(N-1) ≤ c < 10^N` for `c > 0` (with enough fuel). -/
theorem digit_count_go_bounds :
    ∀ (fuel c : Nat), 0 < c → c ≤ fuel →
      10 ^ (digit_count_go fuel c - 1) ≤ c ∧ c < 10 ^ digit_count_go fuel c := by
  intro fuel
  induction fuel with
  | zero => intro c hc hfc; omega
  | succ fuel ih =>
    intro c hc hfc
    simp only [digit_count_go, if_pos hc]
    by_cases hz : c / 10 = 0
    · rw [hz, digit_count_go_zero]
      constructor
      · simpa using hc
      · have : c < 10 := by omega
        simpa using this
    · have hc10 : 0 < c / 10 := Nat.pos_of_ne_zero hz
      have hge : 10 ≤ c := by omega
      have hfc10 : c / 10 ≤ fuel := by omega
      obtain ⟨hlo, hhi⟩ := ih (c / 10) hc10 hfc10
      have hk1 : 1 ≤ digit_count_go fuel (c / 10) := by
        by_contra hk
        have hk0 : digit_count_go fuel (c / 10) = 0 := by omega
        rw [hk0] at hhi
        simp at hhi
        omega
      constructor
      · have heq : 1 + digit_count_go fuel (c / 10) - 1
            = (digit_count_go fuel (c / 10) - 1) + 1 := by omega
        rw [heq, pow_succ]
        calc 10 ^ (digit_count_go fuel (c / 10) - 1) * 10
            ≤ (c / 10) * 10 := Nat.mul_le_mul_right 10 hlo
          _ ≤ c := Nat.div_mul_le_self c 10
      · have heq : 1 + digit_count_go fuel (c / 10)
            = digit_count_go fuel (c / 10) + 1 := by omega
        rw [heq, pow_succ]
        have := (Nat.div_lt_iff_lt_mul (show 0 < 10 by norm_num)).mp hhi
        omega

theorem digit_count_bounds (n : Nat) (hn : 0 < n) :
    10 ^ (digit_count n - 1) ≤ n ∧ n < 10 ^ digit_count n :=
  digit_count_go_bounds n n hn (le_refl n)

/-- Counterexample for C10: the digit-count loop and `⌈log₁₀⌉` disagree at
`line_count = 10`: the code's width is 2 (`10` has two digits) while
`⌈log₁₀ 10⌉ = 1`, so the prepended atom for line 1 is `" 1│"`, not
`"1│"`. -/
theorem show_line_numbers_width_cex :
    digit_count 10 = 2 ∧ Nat.clog 10 10 = 1 ∧
    format_line_number (digit_count 10) 1 = " 1│".data ∧
    format_line_number (Nat.clog 10 10) 1 = "1│".data := by
  have hclog : Nat.clog 10 10 = 1 := by
    have h1 : Nat.clog 10 10 ≤ 1 :=
      (@Nat.le_pow_iff_clog_le 10 (by norm_num) 10 1).mp (by norm_num)
    have h3 : 1 ≤ Nat.clog 10 10 := by
      by_contra h
      have h0 : Nat.clog 10 10 ≤ 0 := by omega
      have h4 := (@Nat.le_pow_iff_clog_le 10 (by norm_num) 10 0).mpr h0
      norm_num at h4
    omega
  refine ⟨by decide, hclog, by decide, ?_⟩
  rw [hclog]
  decide

/-- C10 (amended): `show_line_numbers` prepends to every display line a
text atom `"%Nd│"` of the line's first buffer line number plus one,
right-aligned and space-padded to width `N`, where `N` is the number of
decimal digits of `line_count` — the unique `N` with
`10^(N-1) ≤ line_count < 10^N` — which is `⌈log₁₀ line_count⌉ + 1` at
powers of ten and `⌈log₁₀ line_count⌉` elsewhere. -/
theorem show_line_numbers_amended (lc : Nat) (hlc : 0 < lc) (lnFace : Face)
    (flags : HighlightFlags) (db : List (List DisplayAtom)) :
    show_line_numbers (lc : Int) lnFace flags db
      = db.map (fun line =>
          (⟨AtomKind.Text, ⟨0, 0⟩, ⟨0, 0⟩,
            format_line_number (digit_count lc) ((lineRange line).1.line + 1),
            lnFace⟩ : DisplayAtom) :: line) ∧
    10 ^ (digit_count lc - 1) ≤ lc ∧ lc < 10 ^ digit_count lc := by
  refine ⟨?_, digit_count_bounds lc hlc⟩
  unfold show_line_numbers
  norm_num

/-- Witness for C10's amended statement: the spec's 12-line scenario —
viewport lines 0, 5, 11, width 2, atoms `" 1│"`, `" 6│"`, `"12│"`. -/
theorem show_line_numbers_amended_witness :
    show_line_numbers (12 : Int) ⟨Color.Blue, Color.Default, 0⟩
        HighlightFlags.Highlight
        [[⟨AtomKind.BufferRange, ⟨0, 0⟩, ⟨1, 0⟩, [], ⟨Color.Default, Color.Default, 0⟩⟩],
         [⟨AtomKind.BufferRange, ⟨5, 0⟩, ⟨6, 0⟩, [], ⟨Color.Default, Color.Default, 0⟩⟩],
         [⟨AtomKind.BufferRange, ⟨11, 0⟩, ⟨12, 0⟩, [], ⟨Color.Default, Color.Default, 0⟩⟩]]
      = [[⟨AtomKind.Text, ⟨0, 0⟩, ⟨0, 0⟩, " 1│".data, ⟨Color.Blue, Color.Default, 0⟩⟩,
          ⟨AtomKind.BufferRange, ⟨0, 0⟩, ⟨1, 0⟩, [], ⟨Color.Default, Color.Default, 0⟩⟩],
         [⟨AtomKind.Text, ⟨0, 0⟩, ⟨0, 0⟩, " 6│".data, ⟨Color.Blue, Color.Default, 0⟩⟩,
          ⟨AtomKind.BufferRange, ⟨5, 0⟩, ⟨6, 0⟩, [], ⟨Color.Default, Color.Default, 0⟩⟩],
         [⟨AtomKind.Text, ⟨0, 0⟩, ⟨0, 0⟩, "12│".data, ⟨Color.Blue, Color.Default, 0⟩⟩,
          ⟨AtomKind.BufferRange, ⟨11, 0⟩, ⟨12, 0⟩, [], ⟨Color.Default, Color.Default, 0⟩⟩]]
      ∧ 10 ^ (digit_count 12 - 1) ≤ 12 ∧ 12 < 10 ^ digit_count 12 :=
  show_line_numbers_amended 12 (by decide) ⟨Color.Blue, Color.Default, 0⟩
    HighlightFlags.Highlight
    [[⟨AtomKind.BufferRange, ⟨0, 0⟩, ⟨1, 0⟩, [], ⟨Color.Default, Color.Default, 0⟩⟩],
     [⟨AtomKind.BufferRange, ⟨5, 0⟩, ⟨6, 0⟩, [], ⟨Color.Default, Color.Default, 0⟩⟩],
     [⟨AtomKind.BufferRange, ⟨11, 0⟩, ⟨12, 0⟩, [], ⟨Color.Default, Color.Default, 0⟩⟩]]

/-! ### C9: idempotence -/

/-- Counterexample for C9: `show_line_numbers` — a non-selections
highlighter — prepends a fresh atom on every run (highlighters.cc line
512), so running it twice differs from running it once. -/
theorem show_line_numbers_not_idempotent_cex :
    show_line_numbers (3 : Int) ⟨Color.Blue, Color.Default, 0⟩
        HighlightFlags.Highlight
        (show_line_numbers (3 : Int) ⟨Color.Blue, Color.Default, 0⟩
          HighlightFlags.Highlight
          [[⟨AtomKind.BufferRange, ⟨0, 0⟩, ⟨1, 0⟩, [],
             ⟨Color.Default, Color.Default, 0⟩⟩]])
    ≠ show_line_numbers (3 : Int) ⟨Color.Blue, Color.Default, 0⟩
        HighlightFlags.Highlight
        [[⟨AtomKind.BufferRange, ⟨0, 0⟩, ⟨1, 0⟩, [],
           ⟨Color.Default, Color.Default, 0⟩⟩]] := by
  decide

/-- The min/max accumulation step shared by `lineRange` and
`displayRange`. -/
def minmaxStep {α : Type} (P : α → Bool) (f1 f2 : α → ByteCoord)
    (r : ByteCoord × ByteCoord) (x : α) : ByteCoord × ByteCoord :=
  if P x then (min r.1 (f1 x), max r.2 (f2 x)) else r

theorem lineRange_eq_foldl (line : List DisplayAtom) :
    lineRange line = line.foldl
      (minmaxStep DisplayAtom.has_buffer_range (fun x => x.begin) (fun x => x.end_))
      (⟨INT_MAX, INT_MAX⟩, ⟨INT_MIN, INT_MIN⟩) := rfl

theorem displayRange_eq_foldl (db : List (List DisplayAtom)) :
    displayRange db = db.foldl
      (minmaxStep (fun _ => true) (fun l => (lineRange l).1) (fun l => (lineRange l).2))
      (⟨INT_MAX, INT_MAX⟩, ⟨INT_MIN, INT_MIN⟩) := rfl

theorem minmaxStep_foldl_le {α : Type} (P : α → Bool) (f1 f2 : α → ByteCoord) :
    ∀ (l : List α) (init : ByteCoord × ByteCoord),
      (l.foldl (minmaxStep P f1 f2) init).1 ≤ init.1 ∧
      init.2 ≤ (l.foldl (minmaxStep P f1 f2) init).2 := by
  intro l
  induction l with
  | nil => intro init; exact ⟨le_refl _, le_refl _⟩
  | cons a t ih =>
    intro init
    simp only [List.foldl_cons]
    refine ⟨le_trans (ih (minmaxStep P f1 f2 init a)).1 ?_,
            le_trans ?_ (ih (minmaxStep P f1 f2 init a)).2⟩
    · unfold minmaxStep
      split
      · exact min_le_left _ _
      · exact le_refl _
    · unfold minmaxStep
      split
      · exact le_max_left _ _
      · exact le_refl _

theorem minmaxStep_foldl_bound {α : Type} (P : α → Bool) (f1 f2 : α → ByteCoord) :
    ∀ (l : List α) (init : ByteCoord × ByteCoord) (x : α), x ∈ l → P x = true →
      (l.foldl (minmaxStep P f1 f2) init).1 ≤ f1 x ∧
      f2 x ≤ (l.foldl (minmaxStep P f1 f2) init).2 := by
  intro l
  induction l with
  | nil => intro init x hx _; exact absurd hx (List.not_mem_nil x)
  | cons a t ih =>
    intro init x hx hP
    simp only [List.foldl_cons]
    rcases List.mem_cons.mp hx with rfl | hxt
    · have hle := minmaxStep_foldl_le P f1 f2 t (minmaxStep P f1 f2 init x)
      constructor
      · refine le_trans hle.1 ?_
        unfold minmaxStep
        rw [if_pos hP]
        exact min_le_right _ _
      · refine le_trans ?_ hle.2
        unfold minmaxStep
        rw [if_pos hP]
        exact le_max_right _ _
    · exact ih (minmaxStep P f1 f2 init a) x hxt hP

theorem foldl_congr_mem {α β : Type} (g : β → α → β) (t : α → α) :
    ∀ (l : List α) (init : β), (∀ a ∈ l, ∀ bb, g bb (t a) = g bb a) →
      (l.map t).foldl g init = l.foldl g init := by
  intro l
  induction l with
  | nil => intro init _; rfl
  | cons a tl ih =>
    intro init h
    simp only [List.map_cons, List.foldl_cons]
    rw [h a (List.mem_cons_self a tl) init]
    exact ih _ (fun y hy bb => h y (List.mem_cons_of_mem a hy) bb)

theorem flatMap_eq_map_of_mem {α : Type} (g : α → List α) (t : α → α) :
    ∀ (l : List α), (∀ a ∈ l, g a = [t a]) → l.flatMap g = l.map t := by
  intro l
  induction l with
  | nil => intro _; rfl
  | cons a tl ih =>
    intro h
    simp only [List.flatMap_cons, List.map_cons]
    rw [h a (List.mem_cons_self a tl),
      ih (fun y hy => h y (List.mem_cons_of_mem a hy))]
    rfl

theorem apply_face_idem (face x : Face) :
    apply_face face (apply_face face x) = apply_face face x := by
  unfold apply_face
  by_cases hfg : face.fg ≠ Color.Default <;>
    by_cases hbg : face.bg ≠ Color.Default <;>
      by_cases hat : face.attributes ≠ 0 <;>
        simp [hfg, hbg, hat, Nat.or_assoc, Nat.or_self]

/-- `apply_face` as an atom callback (the closure of highlighters.cc line
154). -/
def applyFaceAtom (face : Face) (a : DisplayAtom) : DisplayAtom :=
  { a with face := apply_face face a.face }

theorem applyFaceAtom_idem (face : Face) (a : DisplayAtom) :
    applyFaceAtom face (applyFaceAtom face a) = applyFaceAtom face a := by
  unfold applyFaceAtom
  simp [apply_face_idem]

/-- The one-atom effect of a fill pass: `f` on overlapping
non-replaced buffer-range atoms, identity elsewhere. -/
def hlT (b e : ByteCoord) (f : DisplayAtom → DisplayAtom) (a : DisplayAtom) :
    DisplayAtom :=
  if ¬ a.has_buffer_range = true ∨ a.kind = AtomKind.ReplacedBufferRange
      ∨ e ≤ a.begin ∨ b ≥ a.end_ then a else f a

theorem hlAtom_nosplit (b e : ByteCoord) (face : Face) (a : DisplayAtom)
    (hb : a.kind = AtomKind.BufferRange → b ≤ a.begin ∧ a.end_ ≤ e) :
    hlAtom b e true (applyFaceAtom face) a = [hlT b e (applyFaceAtom face) a] := by
  rw [hlAtom_eq]
  unfold hlT
  cases hk : a.kind with
  | Text =>
    have hbr : a.has_buffer_range = false := by
      simp [DisplayAtom.has_buffer_range, hk]
    simp [hbr, hk]
  | ReplacedBufferRange =>
    have hbr : a.has_buffer_range = true := by
      simp [DisplayAtom.has_buffer_range, hk]
    simp [hbr, hk]
  | BufferRange =>
    have hbr : a.has_buffer_range = true := by
      simp [DisplayAtom.has_buffer_range, hk]
    obtain ⟨h1, h2⟩ := hb hk
    by_cases hov : e ≤ a.begin ∨ b ≥ a.end_
    · simp [hbr, hk, hov]
    · have hnb : ¬ b > a.begin := not_lt.mpr h1
      have hne : ¬ e < a.end_ := not_lt.mpr h2
      simp only [hbr, hk, hov, hnb, hne, max_eq_left h1, min_eq_left h2,
        if_false, ite_false, List.append_nil, List.nil_append]
      rw [show (⟨AtomKind.BufferRange, a.begin, a.end_, a.text, a.face⟩ : DisplayAtom)
            = a from by rw [← hk]]
      simp

theorem hlT_hbr (face : Face) (b e : ByteCoord) (a : DisplayAtom) :
    (hlT b e (applyFaceAtom face) a).has_buffer_range = a.has_buffer_range := by
  unfold hlT
  split <;> rfl

theorem hlT_begin (face : Face) (b e : ByteCoord) (a : DisplayAtom) :
    (hlT b e (applyFaceAtom face) a).begin = a.begin := by
  unfold hlT
  split <;> rfl

theorem hlT_end (face : Face) (b e : ByteCoord) (a : DisplayAtom) :
    (hlT b e (applyFaceAtom face) a).end_ = a.end_ := by
  unfold hlT
  split <;> rfl

theorem hlT_kind (face : Face) (b e : ByteCoord) (a : DisplayAtom) :
    (hlT b e (applyFaceAtom face) a).kind = a.kind := by
  unfold hlT
  split <;> rfl

theorem hlT_idem (face : Face) (b e : ByteCoord) (a : DisplayAtom) :
    hlT b e (applyFaceAtom face) (hlT b e (applyFaceAtom face) a)
      = hlT b e (applyFaceAtom face) a := by
  by_cases h : (¬ a.has_buffer_range = true ∨ a.kind = AtomKind.ReplacedBufferRange
      ∨ e ≤ a.begin ∨ b ≥ a.end_)
  · simp only [hlT]
    rw [if_pos h, if_pos h]
  · simp only [hlT]
    rw [if_neg h]
    have h' : ¬ (¬ (applyFaceAtom face a).has_buffer_range = true
        ∨ (applyFaceAtom face a).kind = AtomKind.ReplacedBufferRange
        ∨ e ≤ (applyFaceAtom face a).begin ∨ b ≥ (applyFaceAtom face a).end_) := h
    rw [if_neg h']
    exact applyFaceAtom_idem face a

theorem lineRange_map_hlT (face : Face) (b e : ByteCoord) (line : List DisplayAtom) :
    lineRange (line.map (hlT b e (applyFaceAtom face))) = lineRange line := by
  rw [lineRange_eq_foldl, lineRange_eq_foldl]
  apply foldl_congr_mem
  intro a _ bb
  simp only [minmaxStep]
  rw [hlT_hbr, hlT_begin, hlT_end]

theorem displayRange_map_congr (L : List DisplayAtom → List DisplayAtom)
    (db : List (List DisplayAtom))
    (h : ∀ line ∈ db, lineRange (L line) = lineRange line) :
    displayRange (db.map L) = displayRange db := by
  rw [displayRange_eq_foldl, displayRange_eq_foldl]
  apply foldl_congr_mem
  intro line hline bb
  simp only [minmaxStep]
  rw [h line hline]

/-- C9 (amended): `fill` — whose range argument is the display buffer's
own computed range, so that no atom is ever split — is idempotent:
running it twice produces the display buffer of running it once.  (The
claim's universal statement over all non-selections highlighters fails:
`show_line_numbers` prepends an atom on each run.) -/
theorem fill_idempotent (face : Face) (flags : HighlightFlags)
    (db : List (List DisplayAtom)) :
    fill face flags (fill face flags db) = fill face flags db := by
  by_cases h0 : ((displayRange db).1 = (displayRange db).2 ∨
      (displayRange db).2 ≤ (displayRange db).1 ∨
      (displayRange db).1 ≥ (displayRange db).2)
  · have h1 : fill face flags db = db := by
      unfold fill highlight_range
      rw [if_pos h0]
    rw [h1]
    exact h1
  · have hchar : ∀ (d : List (List DisplayAtom)),
        displayRange d = displayRange db →
        (∀ line ∈ d, ∀ a ∈ line, a.kind = AtomKind.BufferRange →
          (displayRange db).1 ≤ a.begin ∧ a.end_ ≤ (displayRange db).2) →
        fill face flags d
          = d.map (fun line =>
              if (lineRange line).2 ≤ (displayRange db).1 ∨
                  (displayRange db).2 < (lineRange line).1 then line
              else line.map
                (hlT (displayRange db).1 (displayRange db).2 (applyFaceAtom face))) := by
      intro d hd hbound
      unfold fill highlight_range
      rw [hd, if_neg h0]
      apply List.map_congr_left
      intro line hline
      by_cases hg : ((lineRange line).2 ≤ (displayRange db).1 ∨
          (displayRange db).2 < (lineRange line).1)
      · rw [if_pos hg, if_pos hg]
      · rw [if_neg hg, if_neg hg]
        apply flatMap_eq_map_of_mem
        intro a ha
        exact hlAtom_nosplit (displayRange db).1 (displayRange db).2 face a
          (fun hk => hbound line hline a ha hk)
    have hbound0 : ∀ line ∈ db, ∀ a ∈ line, a.kind = AtomKind.BufferRange →
        (displayRange db).1 ≤ a.begin ∧ a.end_ ≤ (displayRange db).2 := by
      intro line hline a ha hk
      have hhbr : a.has_buffer_range = true := by
        simp [DisplayAtom.has_buffer_range, hk]
      have hl := minmaxStep_foldl_bound (fun _ => true)
        (fun l => (lineRange l).1) (fun l => (lineRange l).2) db
        (⟨INT_MAX, INT_MAX⟩, ⟨INT_MIN, INT_MIN⟩) line hline rfl
      rw [← displayRange_eq_foldl] at hl
      have ha2 := minmaxStep_foldl_bound DisplayAtom.has_buffer_range
        (fun x => x.begin) (fun x => x.end_) line
        (⟨INT_MAX, INT_MAX⟩, ⟨INT_MIN, INT_MIN⟩) a ha hhbr
      rw [← lineRange_eq_foldl] at ha2
      exact ⟨le_trans hl.1 ha2.1, le_trans ha2.2 hl.2⟩
    have h1 := hchar db rfl hbound0
    have hLR : ∀ line,
        lineRange (if (lineRange line).2 ≤ (displayRange db).1 ∨
            (displayRange db).2 < (lineRange line).1 then line
          else line.map
            (hlT (displayRange db).1 (displayRange db).2 (applyFaceAtom face)))
          = lineRange line := by
      intro line
      by_cases hg : ((lineRange line).2 ≤ (displayRange db).1 ∨
          (displayRange db).2 < (lineRange line).1)
      · rw [if_pos hg]
      · rw [if_neg hg]
        exact lineRange_map_hlT face _ _ line
    have hdr := displayRange_map_congr
      (fun line =>
        if (lineRange line).2 ≤ (displayRange db).1 ∨
            (displayRange db).2 < (lineRange line).1 then line
        else line.map
          (hlT (displayRange db).1 (displayRange db).2 (applyFaceAtom face)))
      db (fun line _ => hLR line)
    have hbound1 : ∀ line ∈ db.map (fun line =>
          if (lineRange line).2 ≤ (displayRange db).1 ∨
              (displayRange db).2 < (lineRange line).1 then line
          else line.map
            (hlT (displayRange db).1 (displayRange db).2 (applyFaceAtom face))),
        ∀ a ∈ line, a.kind = AtomKind.BufferRange →
          (displayRange db).1 ≤ a.begin ∧ a.end_ ≤ (displayRange db).2 := by
      intro line' hline' a' ha' hk'
      obtain ⟨line, hline, rfl⟩ := List.mem_map.mp hline'
      by_cases hg : ((lineRange line).2 ≤ (displayRange db).1 ∨
          (displayRange db).2 < (lineRange line).1)
      · rw [if_pos hg] at ha'
        exact hbound0 line hline a' ha' hk'
      · rw [if_neg hg] at ha'
        obtain ⟨a, ha, rfl⟩ := List.mem_map.mp ha'
        rw [hlT_kind] at hk'
        rw [hlT_begin, hlT_end]
        exact hbound0 line hline a ha hk'
    have h2 := hchar _ hdr hbound1
    rw [h1, h2, List.map_map]
    apply List.map_congr_left
    intro line hline
    simp only [Function.comp_apply]
    by_cases hg : ((lineRange line).2 ≤ (displayRange db).1 ∨
        (displayRange db).2 < (lineRange line).1)
    · rw [if_pos hg, if_pos hg]
    · rw [if_neg hg, lineRange_map_hlT, if_neg hg, List.map_map]
      apply List.map_congr_left
      intro a _
      simp only [Function.comp_apply]
      exact hlT_idem face _ _ a

end Kakoune
